import Mathlib

/-!
Verification of the genomic-index core of the `task-library` repository.

Strings of the Python source are embedded as `List Char`; machine integers
are embedded as `Nat`/`Int` with explicit reduction modulo `2 ^ w` where the
source masks values; 32-bit floats are embedded by their 32-bit patterns
(the source only moves their bytes around); fallible code returns
`Option`/`Except`.
-/

/-! ## Python string primitives (`str.upper`, `str.replace`, `str.strip`) -/

/-- Whitespace characters stripped by Python's `str.strip()`. -/
def pyIsSpace (c : Char) : Bool :=
  c = ' ' || c = '\t' || c = '\n' || c = '\r' || c = '\x0b' || c = '\x0c'

/-- Python's `str.strip()`: drop whitespace from both ends. -/
def pyStrip (l : List Char) : List Char :=
  (l.dropWhile pyIsSpace).rdropWhile pyIsSpace

/-- Python's `str.upper()` applied characterwise (ASCII case folding, which
covers the contig names this code handles). -/
def pyUpper (l : List Char) : List Char :=
  l.map Char.toUpper

/-- Fuelled worker for `pyReplace`. The fuel is only a termination device:
`pyReplace` always supplies at least the length of the list, which is
enough to finish the scan. -/
def pyReplaceAux (pat : List Char) : Nat → List Char → List Char
  | 0, l => l
  | _ + 1, [] => []
  | fuel + 1, c :: rest =>
      if pat.isPrefixOf (c :: rest) then
        pyReplaceAux pat fuel ((c :: rest).drop pat.length)
      else c :: pyReplaceAux pat fuel rest

/-- Python's `s.replace(pat, '')` for a non-empty `pat`: remove every
non-overlapping occurrence of `pat`, scanning left to right. -/
def pyReplace (pat l : List Char) : List Char :=
  pyReplaceAux pat l.length l

/-- Does `pat` occur in the list as a contiguous substring? -/
def containsTok (pat : List Char) : List Char → Bool
  | [] => pat.isPrefixOf []
  | c :: rest => pat.isPrefixOf (c :: rest) || containsTok pat rest

def tokCHROMOSOME : List Char := ['C', 'H', 'R', 'O', 'M', 'O', 'S', 'O', 'M', 'E']

def tokCHROM : List Char := ['C', 'H', 'R', 'O', 'M']

def tokCHR : List Char := ['C', 'H', 'R']

/-- Does the list contain `CHR` as a contiguous substring? -/
def containsCHR (l : List Char) : Bool :=
  containsTok tokCHR l

/-- `genestack/utils.py`, `normalize_contig_name`: uppercase, remove the
tokens `CHROMOSOME`, `CHROM`, `CHR` (in that order), strip whitespace; if
the result is empty return the original name unchanged. -/
def normalize_contig_name (contig_name : List Char) : List Char :=
  let contig_name_normalized :=
    pyStrip (pyReplace tokCHR (pyReplace tokCHROM
      (pyReplace tokCHROMOSOME (pyUpper contig_name))))
  if contig_name_normalized = [] then contig_name else contig_name_normalized

/-! ### Helper lemmas about the string primitives -/

theorem char_toNat_ofNat_of_lt (n : Nat) (h : n < 0xd800) :
    (Char.ofNat n).toNat = n := by
  have hv : n.isValidChar := Or.inl h
  simp only [Char.ofNat, hv, dif_pos, Char.ofNatAux, Char.toNat]
  exact BitVec.toNat_ofNatLt _ _

theorem toUpper_idem (c : Char) : c.toUpper.toUpper = c.toUpper := by
  unfold Char.toUpper
  by_cases h : c.toNat ≥ 97 ∧ c.toNat ≤ 122
  · rw [if_pos h]
    simp only [char_toNat_ofNat_of_lt (c.toNat - 32) (by omega)]
    rw [if_neg (by omega)]
  · rw [if_neg h, if_neg h]

theorem mem_of_mem_pyReplaceAux {pat : List Char} {c : Char} :
    ∀ {fuel : Nat} {l : List Char}, c ∈ pyReplaceAux pat fuel l → c ∈ l := by
  intro fuel
  induction fuel with
  | zero => intro l h; exact h
  | succ fuel ih =>
      intro l h
      match l with
      | [] => exact h
      | d :: rest =>
          rw [pyReplaceAux] at h
          split at h
          · exact List.mem_of_mem_drop (ih h)
          · rcases List.mem_cons.mp h with h | h
            · exact List.mem_cons.mpr (Or.inl h)
            · exact List.mem_cons_of_mem _ (ih h)

theorem mem_of_mem_pyReplace {pat : List Char} {c : Char} {l : List Char}
    (h : c ∈ pyReplace pat l) : c ∈ l :=
  mem_of_mem_pyReplaceAux h

theorem pyReplaceAux_of_not_containsTok {pat : List Char} :
    ∀ {fuel : Nat} {l : List Char}, containsTok pat l = false →
      pyReplaceAux pat fuel l = l := by
  intro fuel
  induction fuel with
  | zero => intro l _; rfl
  | succ fuel ih =>
      intro l h
      match l with
      | [] => rfl
      | d :: rest =>
          rw [containsTok] at h
          simp only [Bool.or_eq_false_iff] at h
          rw [pyReplaceAux, if_neg (by simp [h.1]), ih h.2]

theorem pyReplace_of_not_containsTok {pat l : List Char}
    (h : containsTok pat l = false) : pyReplace pat l = l :=
  pyReplaceAux_of_not_containsTok h

theorem containsTok_mono {pat1 pat2 : List Char} (hp : pat1 <+: pat2) :
    ∀ {l : List Char}, containsTok pat1 l = false → containsTok pat2 l = false := by
  intro l
  induction l with
  | nil =>
      intro h
      rw [containsTok] at h ⊢
      by_contra hc
      have h2 : pat2 <+: [] := List.isPrefixOf_iff_prefix.mp
        (Bool.of_not_eq_false hc)
      exact absurd (List.isPrefixOf_iff_prefix.mpr (hp.trans h2)) (by simp [h])
  | cons d rest ih =>
      intro h
      rw [containsTok] at h ⊢
      simp only [Bool.or_eq_false_iff] at h ⊢
      refine ⟨?_, ih h.2⟩
      by_contra hc
      have h2 : pat2 <+: d :: rest := List.isPrefixOf_iff_prefix.mp
        (Bool.of_not_eq_false hc)
      exact absurd (List.isPrefixOf_iff_prefix.mpr (hp.trans h2)) (by simp [h.1])

theorem mem_of_mem_pyStrip {c : Char} {l : List Char}
    (h : c ∈ pyStrip l) : c ∈ l := by
  unfold pyStrip at h
  exact (List.dropWhile_sublist _).mem
    ((List.rdropWhile_prefix _ _).sublist.mem h)

theorem pyStrip_idem (l : List Char) : pyStrip (pyStrip l) = pyStrip l := by
  unfold pyStrip
  have hdw : List.dropWhile pyIsSpace
      ((l.dropWhile pyIsSpace).rdropWhile pyIsSpace) =
      (l.dropWhile pyIsSpace).rdropWhile pyIsSpace := by
    rw [List.dropWhile_eq_self_iff]
    intro hl
    obtain ⟨r, hr⟩ := List.rdropWhile_prefix pyIsSpace (l.dropWhile pyIsSpace)
    have hne : (l.dropWhile pyIsSpace).rdropWhile pyIsSpace ≠ [] :=
      List.length_pos.mp hl
    have hh1 : (l.dropWhile pyIsSpace).head? =
        ((l.dropWhile pyIsSpace).rdropWhile pyIsSpace).head? := by
      conv_lhs => rw [← hr]
      rw [List.head?_append, List.head?_eq_head hne]
      simp
    have hkey := List.head?_dropWhile_not pyIsSpace l
    rw [hh1, List.head?_eq_head hne] at hkey
    simp only [] at hkey
    intro hc
    rw [List.get_mk_zero] at hc
    have hkey2 : pyIsSpace
        (((l.dropWhile pyIsSpace).rdropWhile pyIsSpace).head
          (List.length_pos.mp hl)) = false := hkey
    rw [hc] at hkey2
    exact Bool.noConfusion hkey2
  rw [hdw, List.rdropWhile_idempotent]

/-- Characters surviving normalization's non-fallback branch are fixed
points of `Char.toUpper`. -/
theorem normalize_chars_upper {s : List Char} {c : Char}
    (hc : c ∈ pyStrip (pyReplace tokCHR (pyReplace tokCHROM
      (pyReplace tokCHROMOSOME (pyUpper s))))) :
    c.toUpper = c := by
  have h4 := mem_of_mem_pyReplace
    (mem_of_mem_pyReplace (mem_of_mem_pyReplace (mem_of_mem_pyStrip hc)))
  obtain ⟨d, _, hd⟩ := List.mem_map.mp h4
  rw [← hd]
  exact toUpper_idem d

/-- Names already uppercase, stripped and free of `CHR` are fixed points of
`normalize_contig_name`. -/
theorem normalize_fixed_of {t : List Char} (hupper : pyUpper t = t)
    (hstrip : pyStrip t = t) (hchr : containsCHR t = false) :
    normalize_contig_name t = t := by
  have h1 : containsTok tokCHROMOSOME t = false :=
    containsTok_mono ⟨['O', 'M', 'O', 'S', 'O', 'M', 'E'], rfl⟩ hchr
  have h2 : containsTok tokCHROM t = false :=
    containsTok_mono ⟨['O', 'M'], rfl⟩ hchr
  simp only [normalize_contig_name]
  rw [hupper, pyReplace_of_not_containsTok h1, pyReplace_of_not_containsTok h2,
    pyReplace_of_not_containsTok hchr, hstrip]
  split
  · rfl
  · rfl

/-- C4 counterexample input: deleting `CHR` from `CCHRHRX` glues the
surrounding characters into a fresh `CHR` occurrence. -/
def c4Input : List Char := ['c', 'c', 'h', 'r', 'h', 'r', 'x']

/-- C4 is false as stated: `normalize_contig_name` is not idempotent on
`"cchrhrx"`. One pass yields `CHRX` (removing the inner `CHR` splices a new
`CHR` token together), a second pass strips again and yields `X`. -/
theorem normalize_contig_name_not_idempotent :
    normalize_contig_name (normalize_contig_name c4Input) ≠
      normalize_contig_name c4Input := by
  decide

/-- C4 (amended): normalizing twice equals normalizing once whenever the
first normalization either falls back to the original name or produces a
name containing no `CHR` substring; deleting a prefix token can splice a
new `CHR` together, and only then does a second pass strip further. -/
theorem normalize_contig_name_idempotent_of_no_CHR (s : List Char)
    (h : normalize_contig_name s = s ∨
      containsCHR (normalize_contig_name s) = false) :
    normalize_contig_name (normalize_contig_name s) =
      normalize_contig_name s := by
  rcases h with h | h
  · rw [h]
    exact h
  · by_cases hemp : pyStrip (pyReplace tokCHR (pyReplace tokCHROM
        (pyReplace tokCHROMOSOME (pyUpper s)))) = []
    · have hs : normalize_contig_name s = s := by
        simp only [normalize_contig_name, hemp, if_pos]
      rw [hs]
      exact hs
    · have hn : normalize_contig_name s = pyStrip (pyReplace tokCHR
          (pyReplace tokCHROM (pyReplace tokCHROMOSOME (pyUpper s)))) := by
        simp only [normalize_contig_name]
        rw [if_neg hemp]
      rw [hn] at h ⊢
      apply normalize_fixed_of
      · have hmap : ∀ c ∈ pyStrip (pyReplace tokCHR (pyReplace tokCHROM
            (pyReplace tokCHROMOSOME (pyUpper s)))),
            Char.toUpper c = id c :=
          fun c hc => normalize_chars_upper hc
        show List.map Char.toUpper (pyStrip (pyReplace tokCHR (pyReplace tokCHROM
            (pyReplace tokCHROMOSOME (pyUpper s))))) = _
        rw [List.map_congr_left hmap, List.map_id]
      · exact pyStrip_idem _
      · exact h

/-- C4 amended-claim witness at a concrete input. -/
theorem normalize_contig_name_idempotent_witness :
    (containsCHR (normalize_contig_name ['c', 'h', 'r', '1']) = false) ∧
      normalize_contig_name (normalize_contig_name ['c', 'h', 'r', '1']) =
        normalize_contig_name ['c', 'h', 'r', '1'] :=
  ⟨by decide, normalize_contig_name_idempotent_of_no_CHR _ (Or.inr (by decide))⟩

/-! ## Binary encoder (`genestack/utils.py`, class `DumpData`) -/

/-- Big-endian byte encoding of a natural number in `k` bytes (the k low
bytes of `n`, most significant first), as produced by `struct.pack`. -/
def encBE : Nat → Nat → List Nat
  | 0, _ => []
  | k + 1, n => encBE k (n / 256) ++ [n % 256]

/-- Big-endian byte decoding, the inverse of `encBE`. -/
def decBE (bs : List Nat) : Nat :=
  bs.foldl (fun a b => 256 * a + b) 0

/-- One packed value together with its `struct` format entry: `B`/`I`/`Q`
are `num` with the byte width, `f` is a 32-bit float carried as its bit
pattern, `%ss` is a length-`len` byte string. -/
inductive PackItem : Type
  | num (bytes : Nat) (v : Nat)
  | fl (bits : Nat)
  | str (len : Nat) (s : List Nat)

/-- Bytes produced by `struct.pack('>…')` for one format entry. A short
byte string is zero-padded to its declared length, as `struct` does (the
encoder always declares the exact length, so the pad is empty). -/
def packItem : PackItem → List Nat
  | .num bytes v => encBE bytes v
  | .fl bits => encBE 4 bits
  | .str len s => s.take len ++ List.replicate (len - s.length) 0

/-- `genestack/utils.py`, class `DumpData`: a growable buffer of packed
primitives plus its cumulative byte size. The parallel `format`/`data`
lists of the source are fused into one list of `PackItem`s (the source
always appends to both in lockstep). -/
structure DumpData : Type where
  items : List PackItem
  size : Nat

def DumpData.empty : DumpData := ⟨[], 0⟩

/-- Python's `val & ~(-1 << bits)`: reduce an integer to its low `bits`
bits, i.e. the value modulo `2 ^ bits` (non-negative). -/
def intMask (val : Int) (bits : Nat) : Nat :=
  (val % ((2 ^ bits : Nat) : Int)).toNat

theorem intMask_ofNat (v : Nat) (bits : Nat) :
    intMask (v : Int) bits = v % 2 ^ bits := by
  unfold intMask
  rw [← Int.natCast_mod, Int.toNat_natCast]

/-- `DumpData._put_number`: mask the value to the field width (Python's
`val & ~(-1 << (bytes * 8))`, i.e. the value modulo `2 ^ (bytes * 8)`) and
append it. -/
def DumpData.put_number (dd : DumpData) (val : Int) (bytes_number : Nat) :
    DumpData :=
  ⟨dd.items ++ [.num bytes_number (intMask val (bytes_number * 8))],
   dd.size + bytes_number⟩

def DumpData.put_int (dd : DumpData) (val : Int) : DumpData :=
  dd.put_number val 4

def DumpData.put_long (dd : DumpData) (val : Int) : DumpData :=
  dd.put_number val 8

def DumpData.put_byte (dd : DumpData) (val : Int) : DumpData :=
  dd.put_number val 1

/-- `DumpData.put_float`: `struct.pack` converts the value to a 32-bit
float; the float is embedded by its 32-bit pattern. -/
def DumpData.put_float (dd : DumpData) (bits : Nat) : DumpData :=
  ⟨dd.items ++ [.fl bits], dd.size + 4⟩

/-- `DumpData.put_text`: length byte (strings longer than 255 bytes are
silently truncated to their first 255 bytes) followed by the raw bytes. -/
def DumpData.put_text (dd : DumpData) (val : List Nat) : DumpData :=
  let length := if 255 < val.length then 255 else val.length
  let val2 := if 255 < val.length then val.take 255 else val
  let dd2 := dd.put_byte length
  ⟨dd2.items ++ [.str length val2], dd2.size + length⟩

/-- `DumpData.to_binary`: `struct.pack('>' + ''.join(format), *data)`. -/
def DumpData.to_binary (dd : DumpData) : List Nat :=
  (dd.items.map packItem).flatten

/-! ### The matching decoder and the record round trip (C5) -/

/-- One primitive record field fed to the encoder. -/
inductive Prim : Type
  | pByte (v : Nat)
  | pInt (v : Nat)
  | pLong (v : Nat)
  | pFloat (bits : Nat)
  | pText (s : List Nat)

/-- Field values in range for their declared widths (`u8`, `u32`, `u64`,
`f32` bit pattern, byte string). -/
def primWF : Prim → Prop
  | .pByte v => v < 2 ^ 8
  | .pInt v => v < 2 ^ 32
  | .pLong v => v < 2 ^ 64
  | .pFloat bits => bits < 2 ^ 32
  | .pText s => ∀ b ∈ s, b < 256

/-- Encode one record through `DumpData`, dispatching on the field type as
the index writers do. -/
def dumpRecord (fields : List Prim) : DumpData :=
  fields.foldl (fun dd f =>
    match f with
    | .pByte v => dd.put_byte (v : Int)
    | .pInt v => dd.put_int (v : Int)
    | .pLong v => dd.put_long (v : Int)
    | .pFloat bits => dd.put_float bits
    | .pText s => dd.put_text s) DumpData.empty

/-- Field kinds of the layout, which the matching decoder knows. -/
inductive DDKind : Type
  | kByte
  | kInt
  | kLong
  | kFloat
  | kText
deriving DecidableEq

/-- Decoded field values. -/
inductive DDVal : Type
  | vNum (v : Nat)
  | vFl (bits : Nat)
  | vStr (s : List Nat)
deriving DecidableEq

def primKind : Prim → DDKind
  | .pByte _ => .kByte
  | .pInt _ => .kInt
  | .pLong _ => .kLong
  | .pFloat _ => .kFloat
  | .pText _ => .kText

/-- Value the decoder is expected to recover: numerics bit-exact, strings
truncated to their first 255 bytes. -/
def primDecoded : Prim → DDVal
  | .pByte v => .vNum v
  | .pInt v => .vNum v
  | .pLong v => .vNum v
  | .pFloat bits => .vFl bits
  | .pText s => .vStr (if 255 < s.length then s.take 255 else s)

/-- Modelled from the spec: the decoder of the binary layout lives on the
Java reader side, outside this repository. Per the spec it is the exact
inverse of the encoder — fixed-width big-endian primitives, a length byte
before each string, and reading past the end of the buffer is an error. -/
def decodeField : DDKind → List Nat → Option (DDVal × List Nat)
  | .kByte, bs =>
      match bs with
      | b :: rest => some (.vNum b, rest)
      | [] => none
  | .kInt, bs =>
      if 4 ≤ bs.length then some (.vNum (decBE (bs.take 4)), bs.drop 4) else none
  | .kLong, bs =>
      if 8 ≤ bs.length then some (.vNum (decBE (bs.take 8)), bs.drop 8) else none
  | .kFloat, bs =>
      if 4 ≤ bs.length then some (.vFl (decBE (bs.take 4)), bs.drop 4) else none
  | .kText, bs =>
      match bs with
      | n :: rest =>
          if n ≤ rest.length then some (.vStr (rest.take n), rest.drop n) else none
      | [] => none

/-- Modelled from the spec: decode a whole record against its layout,
failing on a short buffer and on trailing bytes. -/
def decodeFields : List DDKind → List Nat → Option (List DDVal)
  | [], bs => if bs = [] then some [] else none
  | k :: ks, bs =>
      (decodeField k bs).bind fun vr => (decodeFields ks vr.2).map (vr.1 :: ·)

theorem encBE_length (k n : Nat) : (encBE k n).length = k := by
  induction k generalizing n with
  | zero => rfl
  | succ k ih => simp [encBE, ih]

theorem decBE_encBE_general (k : Nat) :
    ∀ (n a : Nat), (encBE k n).foldl (fun x b => 256 * x + b) a =
      a * 256 ^ k + n % 256 ^ k := by
  induction k with
  | zero => intro n a; simp [encBE, Nat.mod_one]
  | succ k ih =>
      intro n a
      rw [encBE, List.foldl_append, ih (n / 256) a]
      simp only [List.foldl_cons, List.foldl_nil]
      have hm : n % 256 ^ (k + 1) = n % 256 + 256 * (n / 256 % 256 ^ k) := by
        rw [pow_succ, mul_comm (256 ^ k) 256]
        exact Nat.mod_mul
      rw [hm]
      ring

theorem decBE_encBE (k n : Nat) (h : n < 256 ^ k) : decBE (encBE k n) = n := by
  unfold decBE
  rw [decBE_encBE_general k n 0]
  simp [Nat.mod_eq_of_lt h]

/-- Bytes contributed to the buffer by one encoded field. -/
def bytesOfPrim (f : Prim) : List Nat :=
  match f with
  | .pByte v => packItem (.num 1 (intMask (v : Int) (1 * 8)))
  | .pInt v => packItem (.num 4 (intMask (v : Int) (4 * 8)))
  | .pLong v => packItem (.num 8 (intMask (v : Int) (8 * 8)))
  | .pFloat bits => packItem (.fl bits)
  | .pText s =>
      let length := if 255 < s.length then 255 else s.length
      let val2 := if 255 < s.length then s.take 255 else s
      packItem (.num 1 (intMask (length : Int) (1 * 8))) ++
        packItem (.str length val2)

/-- The fold step of `dumpRecord`. -/
def stepDD (dd : DumpData) (f : Prim) : DumpData :=
  match f with
  | .pByte v => dd.put_byte (v : Int)
  | .pInt v => dd.put_int (v : Int)
  | .pLong v => dd.put_long (v : Int)
  | .pFloat bits => dd.put_float bits
  | .pText s => dd.put_text s

theorem dumpRecord_eq_foldl (fields : List Prim) :
    dumpRecord fields = fields.foldl stepDD DumpData.empty := by
  unfold dumpRecord stepDD
  rfl

theorem stepDD_to_binary (dd : DumpData) (f : Prim) :
    (stepDD dd f).to_binary = dd.to_binary ++ bytesOfPrim f := by
  cases f <;>
    simp [stepDD, bytesOfPrim, DumpData.to_binary, DumpData.put_byte,
      DumpData.put_int, DumpData.put_long, DumpData.put_float,
      DumpData.put_text, DumpData.put_number]

theorem foldl_stepDD_to_binary (fields : List Prim) :
    ∀ dd : DumpData, (fields.foldl stepDD dd).to_binary =
      dd.to_binary ++ (fields.map bytesOfPrim).flatten := by
  induction fields with
  | nil => intro dd; simp
  | cons f fs ih =>
      intro dd
      rw [List.foldl_cons, ih, stepDD_to_binary]
      simp

theorem dumpRecord_to_binary (fields : List Prim) :
    (dumpRecord fields).to_binary = (fields.map bytesOfPrim).flatten := by
  rw [dumpRecord_eq_foldl, foldl_stepDD_to_binary]
  simp [DumpData.empty, DumpData.to_binary]

theorem decodeField_bytesOfPrim (f : Prim) (hwf : primWF f) (rest : List Nat) :
    decodeField (primKind f) (bytesOfPrim f ++ rest) =
      some (primDecoded f, rest) := by
  cases f with
  | pByte v =>
      have hwf2 : v < 2 ^ 8 := hwf
      have h256 : v < 256 := by norm_num at hwf2; exact hwf2
      have hbytes : bytesOfPrim (.pByte v) = [v] := by
        simp [bytesOfPrim, packItem, encBE, intMask_ofNat,
          Nat.mod_eq_of_lt h256]
      rw [hbytes]
      rfl
  | pInt v =>
      have hwf2 : v < 2 ^ 32 := hwf
      have hwf3 : v < 4294967296 := by
        have h := hwf2; norm_num at h; exact h
      have hbytes : bytesOfPrim (.pInt v) = encBE 4 v := by
        simp [bytesOfPrim, packItem, intMask_ofNat, Nat.mod_eq_of_lt hwf3]
      rw [hbytes]
      have hlen : (encBE 4 v).length = 4 := encBE_length _ _
      simp only [primKind, decodeField, List.length_append, hlen]
      rw [if_pos (by omega), List.take_left' hlen, List.drop_left' hlen,
        decBE_encBE 4 v (by
          have h4 : (256 : Nat) ^ 4 = 2 ^ 32 := by norm_num
          rw [h4]; exact hwf2)]
      rfl
  | pLong v =>
      have hwf2 : v < 2 ^ 64 := hwf
      have hwf3 : v < 18446744073709551616 := by
        have h := hwf2; norm_num at h; exact h
      have hbytes : bytesOfPrim (.pLong v) = encBE 8 v := by
        simp [bytesOfPrim, packItem, intMask_ofNat, Nat.mod_eq_of_lt hwf3]
      rw [hbytes]
      have hlen : (encBE 8 v).length = 8 := encBE_length _ _
      simp only [primKind, decodeField, List.length_append, hlen]
      rw [if_pos (by omega), List.take_left' hlen, List.drop_left' hlen,
        decBE_encBE 8 v (by
          have h4 : (256 : Nat) ^ 8 = 2 ^ 64 := by norm_num
          rw [h4]; exact hwf2)]
      rfl
  | pFloat bits =>
      have hwf2 : bits < 2 ^ 32 := hwf
      have hbytes : bytesOfPrim (.pFloat bits) = encBE 4 bits := by
        simp [bytesOfPrim, packItem]
      rw [hbytes]
      have hlen : (encBE 4 bits).length = 4 := encBE_length _ _
      simp only [primKind, decodeField, List.length_append, hlen]
      rw [if_pos (by omega), List.take_left' hlen, List.drop_left' hlen,
        decBE_encBE 4 bits (by
          have h4 : (256 : Nat) ^ 4 = 2 ^ 32 := by norm_num
          rw [h4]; exact hwf2)]
      rfl
  | pText s =>
      by_cases hlong : 255 < s.length
      · have hlen2 : (s.take 255).length = 255 := by simp; omega
        have h255 : intMask (255 : Int) 8 = 255 := by decide
        have hbytes : bytesOfPrim (.pText s) = 255 :: s.take 255 := by
          simp [bytesOfPrim, packItem, encBE, if_pos hlong, h255,
            hlen2, List.take_take]
        rw [hbytes]
        simp only [primKind, decodeField, List.cons_append]
        rw [if_pos (by simp [hlen2]), List.take_left' hlen2,
          List.drop_left' hlen2]
        simp [primDecoded, if_pos hlong]
      · have hlen2 : s.length <= 255 := by omega
        have hbytes : bytesOfPrim (.pText s) = s.length :: s := by
          simp [bytesOfPrim, packItem, encBE, if_neg hlong, intMask_ofNat,
            Nat.mod_eq_of_lt (show s.length < 2 ^ 8 by omega),
            Nat.mod_eq_of_lt (show s.length < 256 by omega)]
        rw [hbytes]
        simp only [primKind, decodeField, List.cons_append]
        rw [if_pos (by simp), List.take_left' rfl, List.drop_left' rfl]
        simp [primDecoded, if_neg hlong]

instance primWF_decidable (f : Prim) : Decidable (primWF f) := by
  cases f <;> simp only [primWF] <;> infer_instance

/-- C5: encoding a record of primitives with `DumpData` and decoding the
resulting big-endian buffer with the matching decoder yields the original
values exactly — numerics bit-exact, each string exact up to truncation of
strings longer than 255 bytes to their first 255 bytes. -/
theorem dumpData_roundtrip (fields : List Prim)
    (hwf : ∀ f ∈ fields, primWF f) :
    decodeFields (fields.map primKind) (dumpRecord fields).to_binary =
      some (fields.map primDecoded) := by
  rw [dumpRecord_to_binary]
  induction fields with
  | nil => rfl
  | cons f fs ih =>
      simp only [List.map_cons, List.flatten_cons, decodeFields]
      simp [decodeField_bytesOfPrim f (hwf f (by simp)),
        ih (fun g hg => hwf g (List.mem_cons_of_mem _ hg))]

/-- C5 witness: a concrete record with one field of each primitive kind
(the float is `1.0f`, pattern `0x3F800000`; the string is `hello`). -/
theorem dumpData_roundtrip_witness :
    (∀ f ∈ [Prim.pByte 7, Prim.pInt 70000, Prim.pLong 1099511627776,
        Prim.pFloat 1065353216, Prim.pText [104, 101, 108, 108, 111]],
      primWF f) ∧
    decodeFields ([Prim.pByte 7, Prim.pInt 70000, Prim.pLong 1099511627776,
        Prim.pFloat 1065353216,
        Prim.pText [104, 101, 108, 108, 111]].map primKind)
      (dumpRecord [Prim.pByte 7, Prim.pInt 70000, Prim.pLong 1099511627776,
        Prim.pFloat 1065353216,
        Prim.pText [104, 101, 108, 108, 111]]).to_binary =
      some ([Prim.pByte 7, Prim.pInt 70000, Prim.pLong 1099511627776,
        Prim.pFloat 1065353216,
        Prim.pText [104, 101, 108, 108, 111]].map primDecoded) :=
  ⟨by decide, dumpData_roundtrip _ (by decide)⟩

/-! ## Block index builder (`genestack/bio/bed/bed_indexer.py`, class `Block`) -/

/-- An entry fed to the builder: `(start, end, offset, size)`. -/
abbrev BEntry : Type := Int × Int × Int × Int

/-- `Block.MAX_ITEMS` of the source. -/
def BLOCK_MAX_ITEMS : Nat := 100

/-- `Block`: one per contig; `intervals` is the list of index blocks being
built, each a 4-element list `[start, end, offset, size]` exactly as the
source mutates Python lists positionally. -/
structure Block : Type where
  name : List Char
  intervals : List (List Int)
  counter : Nat

def Block.new (contig_name : List Char) : Block :=
  ⟨contig_name, [], 0⟩

/-- `Block.add` (bed_indexer.py lines 214-232): swap a reversed interval,
open the first block if none exists, start a fresh block when the counter
reaches the capacity, then either seed the current block with
`[start, end, offset, size]` or extend it — overwriting its end with THIS
entry's end and accumulating the size. -/
def Block.add (maxItems : Nat) (b : Block) (start end_ offset size : Int) :
    Block :=
  let se := if end_ < start then (end_, start) else (start, end_)
  let ivs0 := if b.intervals.isEmpty then b.intervals ++ [[]] else b.intervals
  let p : List (List Int) × Nat :=
    if maxItems ≤ b.counter then (ivs0 ++ [[]], 0) else (ivs0, b.counter)
  let block := p.1.getLastD []
  let newLast :=
    if block.isEmpty then [se.1, se.2, offset, size]
    else [block.getD 0 0, se.2, block.getD 2 0, block.getD 3 0 + size]
  ⟨b.name, p.1.dropLast ++ [newLast], p.2 + 1⟩

def Block.addAll (maxItems : Nat) (b : Block) (es : List BEntry) : Block :=
  es.foldl (fun b e => Block.add maxItems b e.1 e.2.1 e.2.2.1 e.2.2.2) b

/-- The start/end swap applied by `Block.add`. -/
def normEntry (e : BEntry) : BEntry :=
  if e.2.1 < e.1 then (e.2.1, e.1, e.2.2.1, e.2.2.2) else e

/-- Reference machine mirroring the fold of `Block.add` over a state
`(current block, counter)`; returns the final interval list and counter. -/
def blockRun (m : Nat) : List Int → Nat → List BEntry → List (List Int) × Nat
  | cur, k, [] => ([cur], k)
  | cur, k, e :: es =>
      let en := normEntry e
      if m ≤ k then
        let r := blockRun m [en.1, en.2.1, en.2.2.1, en.2.2.2] 1 es
        (cur :: r.1, r.2)
      else
        blockRun m [cur.getD 0 0, en.2.1, cur.getD 2 0,
          cur.getD 3 0 + en.2.2.2] (k + 1) es

/-- Consecutive runs of at most `m` elements (the entry groups that end up
sharing one index block). -/
def chunksOf (m : Nat) : List α → List (List α)
  | [] => []
  | x :: xs => (x :: xs.take (m - 1)) :: chunksOf m (xs.drop (m - 1))
termination_by l => l.length
decreasing_by simp [List.length_drop]; omega

/-- The 4-element index block a chunk of entries produces: first entry's
start, LAST entry's end, first entry's offset, summed sizes. -/
def blockOfChunk (c : List BEntry) : List Int :=
  [(c.headD (0, 0, 0, 0)).1, (c.getLastD (0, 0, 0, 0)).2.1,
   (c.headD (0, 0, 0, 0)).2.2.1, (c.map (fun e => e.2.2.2)).sum]

/-- Minimum of the entries' starts (0 for an empty chunk). -/
def minStart (c : List BEntry) : Int :=
  match c with
  | [] => 0
  | e :: es => es.foldl (fun a x => min a x.1) e.1

theorem block_addAll_from_state (m : Nat) (name : List Char) :
    ∀ (es : List BEntry) (done : List (List Int)) (cur : List Int) (k : Nat),
      cur ≠ [] →
      Block.addAll m ⟨name, done ++ [cur], k⟩ es =
        ⟨name, done ++ (blockRun m cur k es).1, (blockRun m cur k es).2⟩ := by
  intro es
  induction es with
  | nil =>
      intro done cur k hcur
      simp [Block.addAll, blockRun]
  | cons e es ih =>
      intro done cur k hcur
      have hstep : Block.addAll m ⟨name, done ++ [cur], k⟩ (e :: es) =
          Block.addAll m
            (Block.add m ⟨name, done ++ [cur], k⟩ e.1 e.2.1 e.2.2.1 e.2.2.2)
            es := rfl
      rw [hstep]
      by_cases hk : m ≤ k
      · have hadd : Block.add m ⟨name, done ++ [cur], k⟩
            e.1 e.2.1 e.2.2.1 e.2.2.2 =
            ⟨name, (done ++ [cur]) ++ [[(normEntry e).1, (normEntry e).2.1,
              (normEntry e).2.2.1, (normEntry e).2.2.2]], 1⟩ := by
          simp only [Block.add, normEntry]
          have hne : (done ++ [cur]).isEmpty = false := by
            simp [List.isEmpty_iff]
          rw [hne]
          simp only [if_false, Bool.false_eq_true, if_pos hk]
          rw [List.getLastD_concat]
          simp only [List.isEmpty_nil, if_pos]
          rw [List.dropLast_concat]
          by_cases hswap : e.2.1 < e.1 <;> simp [hswap]
        rw [hadd, ih _ _ 1 (by simp)]
        have hrun : blockRun m cur k (e :: es) =
            (cur :: (blockRun m [(normEntry e).1, (normEntry e).2.1,
              (normEntry e).2.2.1, (normEntry e).2.2.2] 1 es).1,
             (blockRun m [(normEntry e).1, (normEntry e).2.1,
              (normEntry e).2.2.1, (normEntry e).2.2.2] 1 es).2) := by
          rw [blockRun]
          simp [hk]
        rw [hrun]
        simp
      · have hadd : Block.add m ⟨name, done ++ [cur], k⟩
            e.1 e.2.1 e.2.2.1 e.2.2.2 =
            ⟨name, done ++ [[cur.getD 0 0, (normEntry e).2.1, cur.getD 2 0,
              cur.getD 3 0 + (normEntry e).2.2.2]], k + 1⟩ := by
          simp only [Block.add, normEntry]
          have hne : (done ++ [cur]).isEmpty = false := by
            simp [List.isEmpty_iff]
          rw [hne]
          simp only [if_false, Bool.false_eq_true, if_neg hk]
          rw [List.getLastD_concat]
          have hce : cur.isEmpty = false := by simp [List.isEmpty_iff, hcur]
          rw [hce]
          simp only [if_false, Bool.false_eq_true]
          rw [List.dropLast_concat]
          by_cases hswap : e.2.1 < e.1 <;> simp [hswap]
        rw [hadd, ih _ _ (k + 1) (by simp)]
        have hrun : blockRun m cur k (e :: es) =
            blockRun m [cur.getD 0 0, (normEntry e).2.1, cur.getD 2 0,
              cur.getD 3 0 + (normEntry e).2.2.2] (k + 1) es := by
          rw [blockRun]
          simp [hk]
        rw [hrun]

/-- Continuation chunks: the current (non-empty) chunk `c` absorbs entries
until it holds `m`, then fresh chunks of `m` follow. -/
def chunksCont (m : Nat) (c : List BEntry) (es : List BEntry) :
    List (List BEntry) :=
  if m ≤ c.length then c :: chunksOf m es
  else (c ++ es.take (m - c.length)) :: chunksOf m (es.drop (m - c.length))

theorem blockOfChunk_singleton (e : BEntry) :
    blockOfChunk [e] = [e.1, e.2.1, e.2.2.1, e.2.2.2] := by
  simp [blockOfChunk]

theorem blockOfChunk_concat (c : List BEntry) (hc : c ≠ []) (e : BEntry) :
    blockOfChunk (c ++ [e]) =
      [(blockOfChunk c).getD 0 0, e.2.1, (blockOfChunk c).getD 2 0,
       (blockOfChunk c).getD 3 0 + e.2.2.2] := by
  obtain ⟨x, xs, rfl⟩ := List.exists_cons_of_ne_nil hc
  have h1 : (x :: xs ++ [e]).getLastD (0, 0, 0, 0) = e :=
    List.getLastD_concat _ _ _
  unfold blockOfChunk
  rw [h1]
  simp
  omega

theorem chunksCont_nil (m : Nat) (c : List BEntry) :
    chunksCont m c [] = [c] := by
  unfold chunksCont
  split <;> simp [chunksOf]

theorem chunksCont_cons_lt (m : Nat) (c : List BEntry) (e : BEntry)
    (es : List BEntry) (hk : c.length < m) :
    chunksCont m c (e :: es) = chunksCont m (c ++ [e]) es := by
  unfold chunksCont
  rw [if_neg (by omega)]
  obtain ⟨n, hn⟩ : ∃ n, m - c.length = n + 1 := ⟨m - c.length - 1, by omega⟩
  rw [hn]
  simp only [List.take_succ_cons, List.drop_succ_cons]
  by_cases h2 : m ≤ c.length + 1
  · have hn0 : n = 0 := by omega
    rw [if_pos (by simp; omega)]
    subst hn0
    simp
  · rw [if_neg (by simp; omega)]
    have hn2 : m - (c ++ [e]).length = n := by simp; omega
    rw [hn2]
    simp

theorem chunksOf_cons_eq_chunksCont (m : Nat) (hm : 1 ≤ m) (e : BEntry)
    (es : List BEntry) :
    chunksOf m (e :: es) = chunksCont m [e] es := by
  rw [chunksOf]
  unfold chunksCont
  by_cases h : m ≤ 1
  · have hm1 : m = 1 := by omega
    subst hm1
    simp
  · rw [if_neg (by simp; omega)]
    simp

theorem blockRun_chunksCont (m : Nat) (hm : 1 ≤ m) :
    ∀ (es : List BEntry) (c : List BEntry), c ≠ [] →
      (∀ x ∈ es, x.1 ≤ x.2.1) →
      (blockRun m (blockOfChunk c) c.length es).1 =
        (chunksCont m c es).map blockOfChunk := by
  intro es
  induction es with
  | nil =>
      intro c hc hse
      rw [blockRun, chunksCont_nil]
      simp
  | cons e es ih =>
      intro c hc hse
      have hne : normEntry e = e := by
        have h := hse e (by simp)
        unfold normEntry
        rw [if_neg (by omega)]
      rw [blockRun]
      simp only [hne]
      by_cases hk : m ≤ c.length
      · rw [if_pos hk]
        have h1 : [e.1, e.2.1, e.2.2.1, e.2.2.2] = blockOfChunk [e] :=
          (blockOfChunk_singleton e).symm
        have hih := ih [e] (by simp)
          (fun x hx => hse x (List.mem_cons_of_mem _ hx))
        simp only [List.length_singleton] at hih
        unfold chunksCont
        rw [if_pos hk]
        simp only [List.map_cons]
        rw [chunksOf_cons_eq_chunksCont m hm]
        rw [h1, hih]
      · rw [if_neg hk]
        have h1 : [(blockOfChunk c).getD 0 0, e.2.1, (blockOfChunk c).getD 2 0,
            (blockOfChunk c).getD 3 0 + e.2.2.2] = blockOfChunk (c ++ [e]) :=
          (blockOfChunk_concat c hc e).symm
        have hih := ih (c ++ [e]) (by simp)
          (fun x hx => hse x (List.mem_cons_of_mem _ hx))
        have hlen : (c ++ [e]).length = c.length + 1 := by simp
        rw [hlen] at hih
        rw [h1, hih, chunksCont_cons_lt m c e es (by omega)]

theorem chunksOf_mem_part {m : Nat} :
    ∀ {l c : List BEntry}, c ∈ chunksOf m l → c <:+: l := by
  intro l
  induction l using chunksOf.induct m with
  | case1 => intro c hc; simp [chunksOf] at hc
  | case2 x xs ih =>
      intro c hc
      rw [chunksOf] at hc
      rcases List.mem_cons.mp hc with h | h
      · subst h
        exact (List.cons_prefix_cons.mpr ⟨rfl, List.take_prefix _ _⟩).isInfix
      · exact (ih h).trans (((List.drop_suffix _ _).trans
          (List.suffix_cons _ _)).isInfix)

theorem chunksOf_mem_ne_nil {m : Nat} :
    ∀ {l c : List BEntry}, c ∈ chunksOf m l → c ≠ [] := by
  intro l
  induction l using chunksOf.induct m with
  | case1 => intro c hc; simp [chunksOf] at hc
  | case2 x xs ih =>
      intro c hc
      rw [chunksOf] at hc
      rcases List.mem_cons.mp hc with h | h
      · subst h; simp
      · exact ih h

theorem foldl_min_fst (l : List BEntry) :
    ∀ a : Int, (∀ y ∈ l, a ≤ y.1) →
      l.foldl (fun a y => min a y.1) a = a := by
  induction l with
  | nil => intro a _; rfl
  | cons y ys ih =>
      intro a h
      rw [List.foldl_cons, min_eq_left (h y (by simp))]
      exact ih a (fun z hz => h z (List.mem_cons_of_mem _ hz))

theorem minStart_eq_head (c : List BEntry) (hc : c ≠ [])
    (hsort : c.Pairwise (fun a b => a.1 ≤ b.1)) :
    minStart c = (c.headD (0, 0, 0, 0)).1 := by
  obtain ⟨x, xs, rfl⟩ := List.exists_cons_of_ne_nil hc
  have hx : ∀ y ∈ xs, x.1 ≤ y.1 := (List.pairwise_cons.mp hsort).1
  simp only [minStart, List.headD_cons]
  exact foldl_min_fst xs x.1 hx

/-- C1 is false as stated: feeding `(100,200)`, `(150,160)`, `(900,950)` on
contig `1` with block capacity 2 yields a first block covering
`[100, 160]`, not `[100, 200]`: `Block.add` overwrites the block end with
the last entry's end instead of taking the maximum, so the 200 from the
first entry is lost. -/
theorem block_first_end_not_max :
    (Block.addAll 2 (Block.new ['1'])
        [(100, 200, 0, 10), (150, 160, 10, 10), (900, 950, 20, 12)]).intervals =
      [[100, 160, 0, 20], [900, 950, 20, 12]] ∧ (160 : Int) ≠ 200 := by
  decide

/-- C1 (amended): for entries with `start ≤ end` fed in non-decreasing
start order, the builder groups consecutive entries into blocks of up to
`maxItems`; each block covers from the minimum (= first) start of its
entries to its LAST entry's end — not the maximum end — with the first
entry's byte offset and the summed byte sizes. -/
theorem block_add_covering_span (m : Nat) (name : List Char)
    (es : List BEntry) (hm : 1 ≤ m)
    (hse : ∀ e ∈ es, e.1 ≤ e.2.1)
    (hsorted : es.Pairwise (fun a b => a.1 ≤ b.1)) :
    (Block.addAll m (Block.new name) es).intervals =
      (chunksOf m es).map blockOfChunk ∧
    ∀ c ∈ chunksOf m es, blockOfChunk c =
      [minStart c, (c.getLastD (0, 0, 0, 0)).2.1,
       (c.headD (0, 0, 0, 0)).2.2.1, (c.map (fun e => e.2.2.2)).sum] := by
  constructor
  · cases es with
    | nil => simp [Block.addAll, Block.new, chunksOf]
    | cons e es =>
        have hne : normEntry e = e := by
          have h := hse e (by simp)
          unfold normEntry
          rw [if_neg (by omega)]
        have hstep : Block.addAll m (Block.new name) (e :: es) =
            Block.addAll m
              ⟨name, [] ++ [[e.1, e.2.1, e.2.2.1, e.2.2.2]], 1⟩ es := by
          show Block.addAll m
            (Block.add m (Block.new name) e.1 e.2.1 e.2.2.1 e.2.2.2) es = _
          congr 1
          simp only [Block.add, Block.new]
          rw [if_neg (by omega)]
          have hswap : ¬ e.2.1 < e.1 := by
            have h := hse e (by simp)
            omega
          simp [hswap]
        rw [hstep, block_addAll_from_state m name es [] _ 1 (by simp)]
        have h1 : [e.1, e.2.1, e.2.2.1, e.2.2.2] = blockOfChunk [e] :=
          (blockOfChunk_singleton e).symm
        rw [h1]
        have hrun := blockRun_chunksCont m hm es [e] (by simp)
          (fun x hx => hse x (List.mem_cons_of_mem _ hx))
        simp only [List.length_singleton] at hrun
        rw [List.nil_append, hrun,
          ← chunksOf_cons_eq_chunksCont m hm e es]
  · intro c hcmem
    have hc : c ≠ [] := chunksOf_mem_ne_nil hcmem
    have hsortc : c.Pairwise (fun a b => a.1 ≤ b.1) :=
      hsorted.sublist (chunksOf_mem_part hcmem).sublist
    rw [minStart_eq_head c hc hsortc]
    rfl

/-- C1 amended-claim witness: the scenario input satisfies the hypotheses,
and the theorem applies to it. -/
theorem block_add_covering_span_witness :
    ((1 ≤ 2) ∧
      (∀ e ∈ ([(100, 200, 0, 10), (150, 160, 10, 10), (900, 950, 20, 12)] :
        List BEntry), e.1 ≤ e.2.1) ∧
      ([(100, 200, 0, 10), (150, 160, 10, 10), (900, 950, 20, 12)] :
        List BEntry).Pairwise (fun a b => a.1 ≤ b.1)) ∧
    (Block.addAll 2 (Block.new ['1'])
        [(100, 200, 0, 10), (150, 160, 10, 10), (900, 950, 20, 12)]).intervals =
      (chunksOf 2 [(100, 200, 0, 10), (150, 160, 10, 10),
        (900, 950, 20, 12)]).map blockOfChunk :=
  ⟨⟨by decide, by decide, by decide⟩,
   (block_add_covering_span 2 ['1'] _ (by decide) (by decide) (by decide)).1⟩

/-! ## Step-track encoder (`genestack/bio/wig/wig_indexer.py`) -/

/-- `VARIABLE_STEP` / `FIXED_STEP` type tags of the source. -/
def VARIABLE_STEP : Nat := 1

def FIXED_STEP : Nat := 2

/-- The error text of `VariableStep.add_dump_data`. -/
def ascendingMsg : List Char :=
  ('A' :: "ll positions specified in the input data must be in ascending order".toList)

/-- A parsed WIG step. `varStep` items are `(position - 1, float bits)`
pairs as `VariableStep.update` stores them; `fixStep` keeps the 0-based
start, the step and the float bits of its data lines. -/
inductive WigStep : Type
  | varStep (contig : List Char) (span : Int) (track_number : Nat)
      (items : List (Int × Nat))
  | fixStep (contig : List Char) (span : Int) (track_number : Nat)
      (start : Int) (step : Int) (items : List Nat)

def WigStep.contig : WigStep → List Char
  | .varStep c _ _ _ => c
  | .fixStep c _ _ _ _ _ => c

/-- `VariableStep.get_start` / `FixedStep.get_start`. -/
def WigStep.get_start : WigStep → Int
  | .varStep _ _ _ items => (items.headD (0, 0)).1
  | .fixStep _ _ _ start _ _ => start

/-- `VariableStep.get_end` / `FixedStep.get_end`. -/
def WigStep.get_end : WigStep → Int
  | .varStep _ span _ items => (items.getLastD (0, 0)).1 + span
  | .fixStep _ span _ start step items =>
      start + step * ((items.length : Int) - 1) + span

/-- The scan of `VariableStep.add_dump_data`: positions must not decrease
(`min_start` starts at 0 and tracks the previous position); each item
serializes as a long position plus a float value. -/
def varScan : List (Int × Nat) → Int → DumpData →
    Except (List Char) DumpData
  | [], _, dd => .ok dd
  | (pos, val) :: rest, min_start, dd =>
      if pos < min_start then .error ascendingMsg
      else varScan rest pos ((dd.put_long pos).put_float val)

/-- `Step.add_dump_data` (type tag, span, track ordinal, item count)
followed by the kind-specific payload. -/
def WigStep.add_dump_data : WigStep → DumpData → Except (List Char) DumpData
  | .varStep _ span track items, dd =>
      varScan items 0
        ((((dd.put_byte (VARIABLE_STEP : Int)).put_int span).put_int
          (track : Int)).put_int (items.length : Int))
  | .fixStep _ span track start step items, dd =>
      .ok (items.foldl (fun dd v => dd.put_float v)
        ((((((dd.put_byte (FIXED_STEP : Int)).put_int span).put_int
          (track : Int)).put_int (items.length : Int)).put_long
          start).put_int step))

/-- `self.index.setdefault(contig, []).append(entry)`. -/
def assocAppend (idx : List (List Char × List (List Int))) (key : List Char)
    (v : List Int) : List (List Char × List (List Int)) :=
  match idx with
  | [] => [(key, [v])]
  | (k, vs) :: rest =>
      if k = key then (k, vs ++ [v]) :: rest else (k, vs) :: assocAppend rest key v

/-- Lexicographic order on strings, as Python compares `str` keys. -/
def charListLe : List Char → List Char → Bool
  | [], _ => true
  | _ :: _, [] => false
  | a :: as, b :: bs => if a < b then true else if b < a then false else charListLe as bs

/-- Stable insertion step for `insertionSort`. -/
def insertLe (le : α → α → Bool) (x : α) : List α → List α
  | [] => [x]
  | y :: ys => if le x y then x :: y :: ys else y :: insertLe le x ys

/-- Stable sort (Python's `list.sort` is stable; any stable sort agrees
with it on the sorted result). -/
def insertionSort (le : α → α → Bool) : List α → List α
  | [] => []
  | x :: xs => insertLe le x (insertionSort le xs)

/-- Accumulated indexing state of `WIGIndexer`: the per-contig index block
lists and the current content of the `wig.data` file. -/
structure WigIndexState : Type where
  index : List (List Char × List (List Int))
  wig_data : List Nat

/-- The per-step loop body of `dump_steps`: record the byte offset before
writing, serialize, record the size, append the index block. -/
def dumpStepsLoop : List WigStep → DumpData →
    List (List Char × List (List Int)) →
    Except (List Char) (DumpData × List (List Char × List (List Int)))
  | [], dd, idx => .ok (dd, idx)
  | s :: rest, dd, idx =>
      match s.add_dump_data dd with
      | .error e => .error e
      | .ok dd2 =>
          dumpStepsLoop rest dd2 (assocAppend idx s.contig
            [s.get_start, s.get_end, (dd.size : Int),
             ((dd2.size - dd.size : Nat) : Int)])

/-- `WIGIndexer.dump_steps` (wig_indexer.py lines 167-179): sort the batch
by contig, serialize it into a FRESH `DumpData` (offsets restart at 0),
then open `wig.data` with mode `wb+` — replacing, not appending to, any
previously flushed content. On a serialization error nothing is written. -/
def dump_steps (st : WigIndexState) (steps : List WigStep) :
    Except (List Char) WigIndexState :=
  if steps.isEmpty then .ok st
  else
    match dumpStepsLoop
        (insertionSort (fun a b => charListLe a.contig b.contig) steps)
        DumpData.empty st.index with
    | .error e => .error e
    | .ok (dd, idx) => .ok ⟨idx, dd.to_binary⟩

theorem varScan_ok_chain :
    ∀ (items : List (Int × Nat)) (prev : Int) (dd dd2 : DumpData),
      varScan items prev dd = .ok dd2 →
      List.Chain (fun a b : Int => a ≤ b) prev (items.map Prod.fst) := by
  intro items
  induction items with
  | nil => intro prev dd dd2 _; exact List.Chain.nil
  | cons it rest ih =>
      intro prev dd dd2 h
      obtain ⟨pos, val⟩ := it
      rw [varScan] at h
      split at h
      · exact absurd h (by simp)
      · rename_i hge
        exact List.Chain.cons (by omega) (ih pos _ _ h)

theorem varScan_error_eq :
    ∀ (items : List (Int × Nat)) (prev : Int) (dd : DumpData),
      (∃ dd2, varScan items prev dd = .ok dd2) ∨
        varScan items prev dd = .error ascendingMsg := by
  intro items
  induction items with
  | nil => intro prev dd; exact Or.inl ⟨dd, rfl⟩
  | cons it rest ih =>
      intro prev dd
      obtain ⟨pos, val⟩ := it
      rw [varScan]
      split
      · exact Or.inr rfl
      · exact ih pos _

/-- C6: if a `variableStep` track carries a position smaller than an
earlier position, serialization raises the ascending-order error, and
`dump_steps` aborts with that error before the file write that follows the
loop — the step's binary record is never written to the data file. The
items hold 0-based positions (`position - 1`), which preserves the order
of the raw data-line positions. -/
theorem variableStep_descending_errors (contig : List Char) (span : Int)
    (track : Nat) (items : List (Int × Nat)) (st : WigIndexState)
    (hviol : ¬ (items.map Prod.fst).Pairwise (fun a b : Int => a ≤ b)) :
    (∀ dd : DumpData,
      (WigStep.varStep contig span track items).add_dump_data dd =
        .error ascendingMsg) ∧
    dump_steps st [.varStep contig span track items] = .error ascendingMsg := by
  have hmain : ∀ dd : DumpData,
      (WigStep.varStep contig span track items).add_dump_data dd =
        .error ascendingMsg := by
    intro dd
    rw [WigStep.add_dump_data]
    rcases varScan_error_eq items 0 _ with ⟨dd2, hok⟩ | herr
    · exfalso
      have hchain := varScan_ok_chain items 0 _ _ hok
      have hpw : ((0 : Int) :: items.map Prod.fst).Pairwise
          (fun a b : Int => a ≤ b) := by
        haveI : IsTrans Int (fun a b : Int => a ≤ b) :=
          ⟨fun _ _ _ h1 h2 => le_trans h1 h2⟩
        exact List.chain_iff_pairwise.mp hchain
      exact hviol (List.pairwise_cons.mp hpw).2
    · exact herr
  refine ⟨hmain, ?_⟩
  rw [dump_steps]
  rw [if_neg (by simp)]
  have hsort : insertionSort
      (fun a b : WigStep => charListLe a.contig b.contig)
      [.varStep contig span track items] =
      [.varStep contig span track items] := rfl
  rw [hsort, dumpStepsLoop, hmain]

/-- C6 witness: `span=5`, data lines `10 1.0` then `5 2.0` (stored as
0-based positions 9 and 4, float bit patterns of 1.0f and 2.0f). -/
theorem variableStep_descending_errors_witness :
    (¬ ([((9 : Int), (1065353216 : Nat)), (4, 1073741824)].map
        Prod.fst).Pairwise (fun a b : Int => a ≤ b)) ∧
    dump_steps ⟨[], []⟩
      [.varStep ['1'] 5 0 [(9, 1065353216), (4, 1073741824)]] =
      .error ascendingMsg :=
  ⟨by decide,
   (variableStep_descending_errors ['1'] 5 0
      [(9, 1065353216), (4, 1073741824)] ⟨[], []⟩ (by decide)).2⟩

/-- C2: evaluation of `dump_steps` at a two-flush build. Each flush
serializes into a fresh `DumpData`, so byte offsets restart at 0, and the
file is reopened with `wb+`, so the second flush replaces the first
flush's 29 bytes instead of appending. The contig's final block list holds
two blocks whose byte ranges both start at offset 0 (`[0, 29)` twice —
overlapping, not disjoint or increasing), and the data file retains only
the second flush's 29 bytes, although 58 were serialized in total. -/
theorem wig_multi_flush_overlapping_blocks :
    (dump_steps ⟨[], []⟩
        [.fixStep ['X'] 1 0 0 1 [1065353216]]).map
        (fun st => st.wig_data.length) = .ok 29 ∧
    ((dump_steps ⟨[], []⟩
        [.fixStep ['X'] 1 0 0 1 [1065353216]]).bind
        fun st1 => dump_steps st1
          [.fixStep ['X'] 1 0 9 1 [1073741824]]).map
        (fun st => (st.index, st.wig_data.length)) =
      .ok ([(['X'], [[0, 1, 0, 29], [9, 10, 0, 29]])], 29) :=
  ⟨rfl, rfl⟩

/-! ## Chunked sequence store
(`genestack/bio/reference_genome/dumper.py` and
`reference_genome_indexer.py`, `processing_fasta`) -/

/-- `FastaDumper.BUFFER_SIZE`. -/
def FASTA_BUFFER_SIZE : Nat := 10000

/-- `FastaDumper`: buffered chunk writer. `files` models the chunk files
written to the dumper's folder as `(file name, content)` pairs. -/
structure FastaDumper : Type where
  prefix_name : Option (List Char)
  buffer : List Char
  index : Nat
  files : List (List Char × List Char)

def FastaDumper.init : FastaDumper := ⟨none, [], 0, []⟩

/-- `'%s_%s' % (prefix, index)`. -/
def fastaFileName (p : List Char) (index : Nat) : List Char :=
  p ++ '_' :: Nat.toDigits 10 index

/-- `FastaDumper._dump`: write at most ONE chunk of up to `BUFFER_SIZE`
bytes and keep the remainder; does nothing when the buffer or the prefix
is empty (Python truthiness: `None` and `''` are both falsy). -/
def FastaDumper.dump (fd : FastaDumper) : FastaDumper :=
  if fd.buffer = [] then fd
  else
    match fd.prefix_name with
    | none => fd
    | some p =>
        if p = [] then fd
        else
          { fd with
            files := fd.files ++
              [(fastaFileName p fd.index, fd.buffer.take FASTA_BUFFER_SIZE)],
            index := fd.index + 1,
            buffer := fd.buffer.drop FASTA_BUFFER_SIZE }

/-- `FastaDumper.flush`: despite its docstring ("Save all data from buffer
to file") it calls `_dump` exactly once, then resets the index and clears
the prefix — anything beyond one chunk's worth of buffered data is left in
the buffer and never written. -/
def FastaDumper.flush (fd : FastaDumper) : FastaDumper :=
  match fd.prefix_name with
  | none => fd
  | some p =>
      if p = [] then fd
      else { fd.dump with index := 0, prefix_name := none }

/-- `FastaDumper.set`: flush, then switch to the new prefix. -/
def FastaDumper.set (fd : FastaDumper) (p : List Char) : FastaDumper :=
  { fd.flush with prefix_name := some p }

/-- `FastaDumper.add`: append to the buffer; when the buffer exceeds
`BUFFER_SIZE`, dump (once). -/
def FastaDumper.add (fd : FastaDumper) (text : List Char) : FastaDumper :=
  let fd2 : FastaDumper := { fd with buffer := fd.buffer ++ text }
  if FASTA_BUFFER_SIZE < fd2.buffer.length then fd2.dump else fd2

/-- Python's `s.split()[0]`: first whitespace-separated token. -/
def firstToken (l : List Char) : List Char :=
  (l.dropWhile pyIsSpace).takeWhile (fun c => !(pyIsSpace c))

/-- State of the `processing_fasta` loop: the contig directory entries
(`items`, keyed by the RAW header token with the running length) and the
dumper. -/
structure FastaProcState : Type where
  items : List (List Char × Nat)
  dumper : FastaDumper

/-- One line of the `processing_fasta` loop: a `>` header registers the
raw name in `items` and switches the dumper to the NORMALIZED name; any
other line is stripped, counted into the last directory entry and fed to
the dumper. `none` models the source's uncaught `IndexError` when
sequence data precedes any header. -/
def fastaProcessLine (st : FastaProcState) (line : List Char) :
    Option FastaProcState :=
  match line with
  | '>' :: rest =>
      let name := firstToken rest
      some ⟨st.items ++ [(name, 0)],
        st.dumper.set (normalize_contig_name name)⟩
  | _ =>
      let res := pyStrip line
      match st.items.getLast? with
      | none => none
      | some last =>
          some ⟨st.items.dropLast ++ [(last.1, last.2 + res.length)],
            st.dumper.add res⟩

/-- `processing_fasta` over the lines of one FASTA file, including the
final `fasta_dumper.flush()`. The contig directory file then serializes
`items` (name, length) sorted by name. -/
def processing_fasta_lines (lines : List (List Char)) :
    Option FastaProcState :=
  (lines.foldlM fastaProcessLine ⟨[], FastaDumper.init⟩).map
    (fun st => ⟨st.items, st.dumper.flush⟩)

theorem dropWhile_eq_self_of_all {p : Char → Bool} :
    ∀ {l : List Char}, (∀ c ∈ l, p c = false) → l.dropWhile p = l := by
  intro l
  induction l with
  | nil => intro _; rfl
  | cons c rest ih =>
      intro h
      rw [List.dropWhile_cons, h c (by simp)]
      simp

theorem takeWhile_eq_self_of_all {p : Char → Bool} :
    ∀ {l : List Char}, (∀ c ∈ l, p c = true) → l.takeWhile p = l := by
  intro l
  induction l with
  | nil => intro _; rfl
  | cons c rest ih =>
      intro h
      rw [List.takeWhile_cons, h c (by simp)]
      simp only [if_true]
      rw [ih (fun d hd => h d (List.mem_cons_of_mem _ hd))]

theorem firstToken_eq_self {l : List Char}
    (h : ∀ c ∈ l, pyIsSpace c = false) : firstToken l = l := by
  unfold firstToken
  rw [dropWhile_eq_self_of_all h]
  exact takeWhile_eq_self_of_all (fun c hc => by simp [h c hc])

theorem normalize_contig_name_ne_nil {name : List Char} (h : name ≠ []) :
    normalize_contig_name name ≠ [] := by
  simp only [normalize_contig_name]
  split
  · exact h
  · assumption

theorem pyStrip_eq_self_of_all {l : List Char}
    (h : ∀ c ∈ l, pyIsSpace c = false) : pyStrip l = l := by
  unfold pyStrip
  rw [dropWhile_eq_self_of_all h]
  refine List.rdropWhile_eq_self_iff.mpr (fun hl => ?_)
  simp [h _ (List.getLast_mem hl)]

/-- C9: `processing_fasta` records the contig directory entry under the
RAW header token while the chunk files are named with the NORMALIZED
contig name: for a single-contig FASTA the directory is `[(name, length)]`
and the chunk file is `normalize_contig_name name ++ "_0"`. -/
theorem processing_fasta_raw_directory_normalized_chunks
    (name seq : List Char) (hname : name ≠ [])
    (hns : ∀ c ∈ name, pyIsSpace c = false)
    (hsq : seq.head? ≠ some '>')
    (hres : pyStrip seq ≠ [])
    (hlen : (pyStrip seq).length ≤ FASTA_BUFFER_SIZE) :
    processing_fasta_lines ['>' :: name, seq] =
      some ⟨[(name, (pyStrip seq).length)],
        ⟨none, [], 0,
         [(fastaFileName (normalize_contig_name name) 0, pyStrip seq)]⟩⟩ := by
  have h1 : fastaProcessLine ⟨[], FastaDumper.init⟩ ('>' :: name) =
      some ⟨[(name, 0)],
        ⟨some (normalize_contig_name name), [], 0, []⟩⟩ := by
    have e1 : fastaProcessLine ⟨[], FastaDumper.init⟩ ('>' :: name) =
        some ⟨[(firstToken name, 0)], FastaDumper.set FastaDumper.init
          (normalize_contig_name (firstToken name))⟩ := rfl
    rw [e1, firstToken_eq_self hns]
    rfl
  obtain ⟨c, rest, rfl⟩ : ∃ c rest, seq = c :: rest := by
    cases seq with
    | nil => exact absurd rfl hres
    | cons c rest => exact ⟨c, rest, rfl⟩
  have hc : c ≠ '>' := by
    intro hcc
    exact hsq (by rw [hcc]; rfl)
  have h2 : fastaProcessLine
      ⟨[(name, 0)], ⟨some (normalize_contig_name name), [], 0, []⟩⟩
      (c :: rest) =
      some ⟨[(name, (pyStrip (c :: rest)).length)],
        FastaDumper.add ⟨some (normalize_contig_name name), [], 0, []⟩
          (pyStrip (c :: rest))⟩ := by
    rw [fastaProcessLine.eq_def]
    split
    · rename_i rest1 heq
      injection heq with hh _
      exact absurd hh hc
    · simp
  have h3 : FastaDumper.add
      ⟨some (normalize_contig_name name), [], 0, []⟩ (pyStrip (c :: rest)) =
      ⟨some (normalize_contig_name name), pyStrip (c :: rest), 0, []⟩ := by
    unfold FastaDumper.add
    rw [if_neg (by simpa using hlen)]
    simp
  have h4 : FastaDumper.flush
      ⟨some (normalize_contig_name name), pyStrip (c :: rest), 0, []⟩ =
      ⟨none, [], 0,
       [(fastaFileName (normalize_contig_name name) 0,
         pyStrip (c :: rest))]⟩ := by
    unfold FastaDumper.flush FastaDumper.dump
    have hnn := normalize_contig_name_ne_nil hname
    simp only [if_neg hnn, if_neg hres]
    rw [List.take_of_length_le hlen, List.drop_eq_nil_of_le hlen]
    simp
  unfold processing_fasta_lines
  rw [List.foldlM_cons, h1]
  rw [Option.bind_eq_bind, Option.some_bind]
  rw [List.foldlM_cons, h2, h3]
  rw [Option.bind_eq_bind, Option.some_bind]
  rw [List.foldlM_nil]
  simp [h4]

/-- C9 witness: header `>chr1` with sequence `ACGT`: the directory entry is
keyed `chr1` (raw) while the single chunk file is named `1_0` (normalized
prefix `1`). -/
theorem processing_fasta_raw_directory_normalized_chunks_witness :
    ((['c', 'h', 'r', '1'] : List Char) ≠ [] ∧
     (∀ c ∈ (['c', 'h', 'r', '1'] : List Char), pyIsSpace c = false) ∧
     (['A', 'C', 'G', 'T'] : List Char).head? ≠ some '>' ∧
     pyStrip ['A', 'C', 'G', 'T'] ≠ [] ∧
     (pyStrip ['A', 'C', 'G', 'T']).length ≤ FASTA_BUFFER_SIZE) ∧
    normalize_contig_name ['c', 'h', 'r', '1'] = ['1'] ∧
    processing_fasta_lines ['>' :: ['c', 'h', 'r', '1'], ['A', 'C', 'G', 'T']] =
      some ⟨[(['c', 'h', 'r', '1'], (pyStrip ['A', 'C', 'G', 'T']).length)],
        ⟨none, [], 0,
         [(fastaFileName (normalize_contig_name ['c', 'h', 'r', '1']) 0,
           pyStrip ['A', 'C', 'G', 'T'])]⟩⟩ :=
  ⟨⟨by decide, by decide, by decide, by decide, by decide⟩, by decide,
   processing_fasta_raw_directory_normalized_chunks ['c', 'h', 'r', '1']
     ['A', 'C', 'G', 'T'] (by decide) (by decide) (by decide) (by decide)
     (by decide)⟩

theorem fastaProcessLine_A_line (nm : List Char) (len : Nat)
    (d : FastaDumper) (n : Nat) (hn : 0 < n) :
    fastaProcessLine ⟨[(nm, len)], d⟩ (List.replicate n 'A') =
      some ⟨[(nm, len + n)], d.add (List.replicate n 'A')⟩ := by
  obtain ⟨m, rfl⟩ : ∃ m, n = m + 1 := ⟨n - 1, by omega⟩
  rw [List.replicate_succ, fastaProcessLine.eq_def]
  split
  · rename_i rest1 heq
    injection heq with hh _
    exact absurd hh (by decide)
  · have hstrip : pyStrip ('A' :: List.replicate m 'A') =
        'A' :: List.replicate m 'A' :=
      pyStrip_eq_self_of_all (fun c hc => by
        have hca : c = 'A' := by
          rcases List.mem_cons.mp hc with h | h
          · exact h
          · exact List.eq_of_mem_replicate h
        simp [hca, pyIsSpace])
    simp [hstrip]

theorem fasta_add_replicate_no_dump (p : List Char) (i : Nat)
    (fs : List (List Char × List Char)) (a b : Nat)
    (h : a + b ≤ 10000) :
    FastaDumper.add ⟨some p, List.replicate a 'A', i, fs⟩
        (List.replicate b 'A') =
      ⟨some p, List.replicate (a + b) 'A', i, fs⟩ := by
  unfold FastaDumper.add
  rw [← List.replicate_add]
  rw [if_neg (by simp [FASTA_BUFFER_SIZE]; omega)]

theorem fasta_add_replicate_dump (p : List Char) (hp : p ≠ []) (i : Nat)
    (fs : List (List Char × List Char)) (a b : Nat)
    (h1 : 10000 < a + b) :
    FastaDumper.add ⟨some p, List.replicate a 'A', i, fs⟩
        (List.replicate b 'A') =
      ⟨some p, List.replicate (a + b - 10000) 'A', i + 1,
        fs ++ [(fastaFileName p i, List.replicate 10000 'A')]⟩ := by
  unfold FastaDumper.add FastaDumper.dump
  rw [← List.replicate_add]
  simp only [List.length_replicate, FASTA_BUFFER_SIZE]
  rw [if_pos h1]
  simp only [List.take_replicate, List.drop_replicate]
  rw [Nat.min_eq_left (show 10000 ≤ a + b by omega)]
  rw [if_neg (show ¬ (List.replicate (a + b) 'A' = []) by simp; omega)]
  rw [if_neg hp]

theorem fasta_flush_replicate (p : List Char) (hp : p ≠ []) (i : Nat)
    (fs : List (List Char × List Char)) (a : Nat) (ha : 0 < a) :
    FastaDumper.flush ⟨some p, List.replicate a 'A', i, fs⟩ =
      ⟨none, List.replicate (a - 10000) 'A', 0,
        fs ++ [(fastaFileName p i, List.replicate (min 10000 a) 'A')]⟩ := by
  unfold FastaDumper.flush FastaDumper.dump
  simp only [FASTA_BUFFER_SIZE]
  rw [if_neg hp]
  rw [if_neg (show ¬ (List.replicate a 'A' = []) by simp; omega)]
  rw [if_neg hp]
  simp only [List.take_replicate, List.drop_replicate]

/-- C7: evaluation of `processing_fasta` on 25,000 sequence characters for
one contig. When the characters arrive on five lines of 5,000, three chunk
files `C_0`, `C_1`, `C_2` of sizes 10000, 10000, 5000 are written and the
directory entry records 25000. But when all 25,000 characters arrive on a
single line, only TWO chunk files are written: `add` dumps at most once
per call and `flush` dumps at most once despite its docstring "Save all
data from buffer to file", so 5,000 characters remain in the final buffer
and are silently dropped, while the directory entry still records
25000. -/
theorem fasta_25000_chunks :
    processing_fasta_lines ['>' :: ['c'], List.replicate 25000 'A'] =
      some ⟨[(['c'], 25000)],
        ⟨none, List.replicate 5000 'A', 0,
         [(['C', '_', '0'], List.replicate 10000 'A'),
          (['C', '_', '1'], List.replicate 10000 'A')]⟩⟩ ∧
    processing_fasta_lines (('>' :: ['c']) ::
        [List.replicate 5000 'A', List.replicate 5000 'A',
         List.replicate 5000 'A', List.replicate 5000 'A',
         List.replicate 5000 'A']) =
      some ⟨[(['c'], 25000)],
        ⟨none, [], 0,
         [(['C', '_', '0'], List.replicate 10000 'A'),
          (['C', '_', '1'], List.replicate 10000 'A'),
          (['C', '_', '2'], List.replicate 5000 'A')]⟩⟩ := by
  have h1 : fastaProcessLine ⟨[], FastaDumper.init⟩ ('>' :: ['c']) =
      some ⟨[(['c'], 0)], ⟨some ['C'], [], 0, []⟩⟩ := rfl
  constructor
  · have h2 : fastaProcessLine ⟨[(['c'], 0)], ⟨some ['C'], [], 0, []⟩⟩
        (List.replicate 25000 'A') =
        some ⟨[(['c'], 25000)],
          FastaDumper.add ⟨some ['C'], [], 0, []⟩
            (List.replicate 25000 'A')⟩ := by
      have h := fastaProcessLine_A_line ['c'] 0
        ⟨some ['C'], [], 0, []⟩ 25000 (by omega)
      rw [show (0 + 25000 : Nat) = 25000 from rfl] at h
      exact h
    have h3 : FastaDumper.add ⟨some ['C'], [], 0, []⟩
        (List.replicate 25000 'A') =
        ⟨some ['C'], List.replicate 15000 'A', 1,
          [(['C', '_', '0'], List.replicate 10000 'A')]⟩ := by
      have h := fasta_add_replicate_dump ['C'] (by decide) 0 [] 0 25000
        (by omega)
      rw [show fastaFileName ['C'] 0 = ['C', '_', '0'] from rfl,
        show (0 + 25000 - 10000 : Nat) = 15000 from rfl,
        show List.replicate 0 'A' = ([] : List Char) from rfl,
        show (0 + 1 : Nat) = 1 from rfl, List.nil_append] at h
      exact h
    have h4 : FastaDumper.flush ⟨some ['C'], List.replicate 15000 'A', 1,
        [(['C', '_', '0'], List.replicate 10000 'A')]⟩ =
        ⟨none, List.replicate 5000 'A', 0,
          [(['C', '_', '0'], List.replicate 10000 'A'),
           (['C', '_', '1'], List.replicate 10000 'A')]⟩ := by
      have h := fasta_flush_replicate ['C'] (by decide) 1
        [(['C', '_', '0'], List.replicate 10000 'A')] 15000 (by omega)
      rw [show fastaFileName ['C'] 1 = ['C', '_', '1'] from rfl,
        show (15000 - 10000 : Nat) = 5000 from rfl,
        show (min 10000 15000 : Nat) = 10000 from rfl] at h
      exact h
    unfold processing_fasta_lines
    rw [List.foldlM_cons, h1]
    rw [Option.bind_eq_bind, Option.some_bind]
    rw [List.foldlM_cons, h2, h3]
    rw [Option.bind_eq_bind, Option.some_bind]
    rw [List.foldlM_nil]
    show some (⟨[(['c'], 25000)],
      FastaDumper.flush ⟨some ['C'], List.replicate 15000 'A', 1,
        [(['C', '_', '0'], List.replicate 10000 'A')]⟩⟩ : FastaProcState) = _
    rw [h4]
  · have hd1 : fastaProcessLine ⟨[(['c'], 0)], ⟨some ['C'], [], 0, []⟩⟩
        (List.replicate 5000 'A') =
        some ⟨[(['c'], 5000)],
          ⟨some ['C'], List.replicate 5000 'A', 0, []⟩⟩ := by
      have h := fastaProcessLine_A_line ['c'] 0
        ⟨some ['C'], [], 0, []⟩ 5000 (by omega)
      have ha := fasta_add_replicate_no_dump ['C'] 0 [] 0 5000 (by omega)
      rw [show List.replicate 0 'A' = ([] : List Char) from rfl,
        show (0 + 5000 : Nat) = 5000 from rfl] at ha
      rw [ha, show (0 + 5000 : Nat) = 5000 from rfl] at h
      exact h
    have hd2 : fastaProcessLine
        ⟨[(['c'], 5000)], ⟨some ['C'], List.replicate 5000 'A', 0, []⟩⟩
        (List.replicate 5000 'A') =
        some ⟨[(['c'], 10000)],
          ⟨some ['C'], List.replicate 10000 'A', 0, []⟩⟩ := by
      have h := fastaProcessLine_A_line ['c'] 5000
        ⟨some ['C'], List.replicate 5000 'A', 0, []⟩ 5000 (by omega)
      have ha := fasta_add_replicate_no_dump ['C'] 0 [] 5000 5000 (by omega)
      rw [show (5000 + 5000 : Nat) = 10000 from rfl] at ha
      rw [ha, show (5000 + 5000 : Nat) = 10000 from rfl] at h
      exact h
    have hd3 : fastaProcessLine
        ⟨[(['c'], 10000)], ⟨some ['C'], List.replicate 10000 'A', 0, []⟩⟩
        (List.replicate 5000 'A') =
        some ⟨[(['c'], 15000)],
          ⟨some ['C'], List.replicate 5000 'A', 1,
           [(['C', '_', '0'], List.replicate 10000 'A')]⟩⟩ := by
      have h := fastaProcessLine_A_line ['c'] 10000
        ⟨some ['C'], List.replicate 10000 'A', 0, []⟩ 5000 (by omega)
      have ha := fasta_add_replicate_dump ['C'] (by decide) 0 [] 10000 5000
        (by omega)
      rw [show fastaFileName ['C'] 0 = ['C', '_', '0'] from rfl,
        show (10000 + 5000 - 10000 : Nat) = 5000 from rfl,
        show (0 + 1 : Nat) = 1 from rfl, List.nil_append] at ha
      rw [ha, show (10000 + 5000 : Nat) = 15000 from rfl] at h
      exact h
    have hd4 : fastaProcessLine
        ⟨[(['c'], 15000)], ⟨some ['C'], List.replicate 5000 'A', 1,
          [(['C', '_', '0'], List.replicate 10000 'A')]⟩⟩
        (List.replicate 5000 'A') =
        some ⟨[(['c'], 20000)],
          ⟨some ['C'], List.replicate 10000 'A', 1,
           [(['C', '_', '0'], List.replicate 10000 'A')]⟩⟩ := by
      have h := fastaProcessLine_A_line ['c'] 15000
        ⟨some ['C'], List.replicate 5000 'A', 1,
          [(['C', '_', '0'], List.replicate 10000 'A')]⟩ 5000 (by omega)
      have ha := fasta_add_replicate_no_dump ['C'] 1
        [(['C', '_', '0'], List.replicate 10000 'A')] 5000 5000 (by omega)
      rw [show (5000 + 5000 : Nat) = 10000 from rfl] at ha
      rw [ha, show (15000 + 5000 : Nat) = 20000 from rfl] at h
      exact h
    have hd5 : fastaProcessLine
        ⟨[(['c'], 20000)], ⟨some ['C'], List.replicate 10000 'A', 1,
          [(['C', '_', '0'], List.replicate 10000 'A')]⟩⟩
        (List.replicate 5000 'A') =
        some ⟨[(['c'], 25000)],
          ⟨some ['C'], List.replicate 5000 'A', 2,
           [(['C', '_', '0'], List.replicate 10000 'A'),
            (['C', '_', '1'], List.replicate 10000 'A')]⟩⟩ := by
      have h := fastaProcessLine_A_line ['c'] 20000
        ⟨some ['C'], List.replicate 10000 'A', 1,
          [(['C', '_', '0'], List.replicate 10000 'A')]⟩ 5000 (by omega)
      have ha := fasta_add_replicate_dump ['C'] (by decide) 1
        [(['C', '_', '0'], List.replicate 10000 'A')] 10000 5000 (by omega)
      rw [show fastaFileName ['C'] 1 = ['C', '_', '1'] from rfl,
        show (10000 + 5000 - 10000 : Nat) = 5000 from rfl,
        show (1 + 1 : Nat) = 2 from rfl] at ha
      rw [ha, show (20000 + 5000 : Nat) = 25000 from rfl] at h
      exact h
    have hflush : FastaDumper.flush
        ⟨some ['C'], List.replicate 5000 'A', 2,
         [(['C', '_', '0'], List.replicate 10000 'A'),
          (['C', '_', '1'], List.replicate 10000 'A')]⟩ =
        ⟨none, [], 0,
         [(['C', '_', '0'], List.replicate 10000 'A'),
          (['C', '_', '1'], List.replicate 10000 'A'),
          (['C', '_', '2'], List.replicate 5000 'A')]⟩ := by
      have h := fasta_flush_replicate ['C'] (by decide) 2
        [(['C', '_', '0'], List.replicate 10000 'A'),
         (['C', '_', '1'], List.replicate 10000 'A')] 5000 (by omega)
      rw [show fastaFileName ['C'] 2 = ['C', '_', '2'] from rfl,
        show (5000 - 10000 : Nat) = 0 from rfl,
        show List.replicate 0 'A' = ([] : List Char) from rfl,
        show (min 10000 5000 : Nat) = 5000 from rfl] at h
      exact h
    unfold processing_fasta_lines
    rw [List.foldlM_cons, h1]
    rw [Option.bind_eq_bind, Option.some_bind]
    rw [List.foldlM_cons, hd1]
    rw [Option.bind_eq_bind, Option.some_bind]
    rw [List.foldlM_cons, hd2]
    rw [Option.bind_eq_bind, Option.some_bind]
    rw [List.foldlM_cons, hd3]
    rw [Option.bind_eq_bind, Option.some_bind]
    rw [List.foldlM_cons, hd4]
    rw [Option.bind_eq_bind, Option.some_bind]
    rw [List.foldlM_cons, hd5]
    rw [Option.bind_eq_bind, Option.some_bind]
    rw [List.foldlM_nil]
    show some (⟨[(['c'], 25000)],
      FastaDumper.flush ⟨some ['C'], List.replicate 5000 'A', 2,
        [(['C', '_', '0'], List.replicate 10000 'A'),
         (['C', '_', '1'], List.replicate 10000 'A')]⟩⟩ : FastaProcState) = _
    rw [hflush]

/-! ## BED line validation (`genestack/bio/bed/validate.py` and
`bed_indexer.py`) -/

/-- Digits of a Python integer literal. -/
def digitsToNat (ds : List Char) : Option Nat :=
  match ds with
  | [] => none
  | _ => if ds.all Char.isDigit then
      some (ds.foldl (fun a c => 10 * a + (c.toNat - 48)) 0)
    else none

/-- Python's `int(txt)`: optional surrounding whitespace, optional sign,
non-empty digit run. -/
def pyParseInt (s : List Char) : Option Int :=
  match pyStrip s with
  | '+' :: ds => (digitsToNat ds).map Int.ofNat
  | '-' :: ds => (digitsToNat ds).map (fun n => -(n : Int))
  | ds => (digitsToNat ds).map Int.ofNat

def dropSign : List Char → List Char
  | '+' :: r => r
  | '-' :: r => r
  | r => r

/-- Exponent suffix of a Python float literal (empty, or `e`/`E`, optional
sign, non-empty digits). -/
def floatExpPart : List Char → Bool
  | [] => true
  | c :: r =>
      if c = 'e' || c = 'E' then
        let r2 := dropSign r
        !r2.isEmpty && r2.all Char.isDigit
      else false

/-- Mantissa-with-exponent body of a Python float literal. -/
def floatBody (t : List Char) : Bool :=
  let intPart := t.takeWhile Char.isDigit
  let rest := t.drop intPart.length
  match rest with
  | '.' :: r2 =>
      let fracPart := r2.takeWhile Char.isDigit
      let r3 := r2.drop fracPart.length
      (!intPart.isEmpty || !fracPart.isEmpty) && floatExpPart r3
  | r2 => !intPart.isEmpty && floatExpPart r2

/-- Does Python's `float(txt)` succeed? -/
def pyIsFloat (s : List Char) : Bool :=
  let t := dropSign (pyStrip s)
  let tl := t.map Char.toLower
  tl = ['i', 'n', 'f'] || tl = ['i', 'n', 'f', 'i', 'n', 'i', 't', 'y'] ||
    tl = ['n', 'a', 'n'] || floatBody t

/-- `validate.text_validator`: the pattern `[-\w]*` is a Kleene star, so
`re.match` always succeeds at position 0 — this validator can never
raise. -/
def text_validator (_txt _nm : List Char) : Except (List Char) Unit :=
  .ok ()

def no_validate (_txt _nm : List Char) : Except (List Char) Unit :=
  .ok ()

def number_validator (txt nm : List Char) : Except (List Char) Unit :=
  if (pyParseInt txt).isSome then .ok () else .error nm

def float_validator (txt nm : List Char) : Except (List Char) Unit :=
  if pyIsFloat txt then .ok () else .error nm

/-- `validate.rgb_validator`: `'0'` is accepted outright; otherwise exactly
three comma-separated integers, each at most 255 (no lower bound is
checked). -/
def rgb_validator (txt nm : List Char) : Except (List Char) Unit :=
  if txt = ['0'] then .ok ()
  else
    let items := txt.splitOn ','
    if items.length ≠ 3 then .error nm
    else if items.all (fun it =>
        match pyParseInt it with
        | some num => decide (num ≤ 255)
        | none => false) then .ok ()
    else .error nm

def block_validator (txt nm : List Char) : Except (List Char) Unit :=
  if (txt.splitOn ',').all (fun p => (pyParseInt p).isSome) then .ok ()
  else .error nm

/-- The per-column validators of `bed_indexer.py` (score is validated just
as a float; strand is deliberately not validated). -/
def bedValidators : List (List Char → List Char → Except (List Char) Unit) :=
  [text_validator, number_validator, number_validator, text_validator,
   float_validator, no_validate, number_validator, number_validator,
   rgb_validator, number_validator, block_validator, block_validator]

/-- The column names of `bed_indexer.py` (used in error messages). -/
def bedNames : List (List Char) :=
  [['c', 'o', 'n', 't', 'i', 'g'], ['s', 't', 'a', 'r', 't'],
   ['e', 'n', 'd'], ['n', 'a', 'm', 'e'], ['s', 'c', 'o', 'r', 'e'],
   ['s', 't', 'r', 'a', 'n', 'd'], ['t', 'h', 'i', 'c', 'k', 'S'],
   ['t', 'h', 'i', 'c', 'k', 'E'], ['i', 't', 'e', 'm', 'R', 'g', 'b'],
   ['b', 'l', 'o', 'c', 'k', 'C'], ['b', 'l', 'o', 'c', 'k', 'S'],
   ['b', 'l', 'o', 'c', 'k', 'E']]

def FEATURE_POSSIBLE_LENGTH : List Nat := [3, 4, 5, 6, 8, 9, 12]

/-- `izip(names, validators, feature)`: run validators columnwise, failing
on the first violating column; the zip stops at the shortest list. -/
def validateColumns : List (List Char) →
    List (List Char → List Char → Except (List Char) Unit) →
    List (List Char) → Except (List Char) Unit
  | nm :: nms, v :: vs, f :: fs =>
      match v f nm with
      | .ok _ => validateColumns nms vs fs
      | .error e => .error e
  | _, _, _ => .ok ()

/-- The 12-field cross check: `int(feature[9])` must equal the number of
comma-separated entries of fields 10 and 11. -/
def blockCountMatches (feature : List (List Char)) : Bool :=
  match pyParseInt (feature.getD 9 []) with
  | some block_size =>
      decide (block_size = (((feature.getD 10 []).splitOn ',').length : Int))
        && decide (block_size = (((feature.getD 11 []).splitOn ',').length : Int))
  | none => false

def msgWrongFields : List Char :=
  ['w', 'r', 'o', 'n', 'g', ' ', 'f', 'i', 'e', 'l', 'd', 's']

def msgBlocks : List Char :=
  ['b', 'l', 'o', 'c', 'k', 's']

/-- `bed_indexer.validate_feature`: accept only the known field counts
(any count of 12 or more passes as extra trailing fields), run the
columnwise validators, and for exactly 12 fields check the block counts
against `blockCount`. -/
def validate_feature (feature : List (List Char)) : Except (List Char) Unit :=
  let feature_length := feature.length
  if ¬ feature_length ∈ FEATURE_POSSIBLE_LENGTH ∧ feature_length < 12 then
    .error msgWrongFields
  else
    match validateColumns bedNames bedValidators feature with
    | .error e => .error e
    | .ok _ =>
        if feature_length = 12 then
          if blockCountMatches feature then .ok () else .error msgBlocks
        else .ok ()

/-- C8 is false as stated: a 12-field feature whose field count is
accepted and whose every column passes its per-column validator is still
rejected when `blockCount` (here 2) disagrees with the number of entries
in `blockStart` (here 1). -/
theorem validate_feature_not_only_columns :
    ((12 : Nat) ∈ FEATURE_POSSIBLE_LENGTH ∧
     validateColumns bedNames bedValidators
       [['1'], ['1', '0'], ['2', '0'], ['x'], ['0', '.', '5'], ['+'],
        ['1', '0'], ['2', '0'], ['0'], ['2'], ['1'], ['1', ',', '2']] =
       .ok ()) ∧
    validate_feature
      [['1'], ['1', '0'], ['2', '0'], ['x'], ['0', '.', '5'], ['+'],
       ['1', '0'], ['2', '0'], ['0'], ['2'], ['1'], ['1', ',', '2']] =
      .error msgBlocks :=
  ⟨⟨by decide, rfl⟩, rfl⟩

/-- C8 (amended): `validate_feature` accepts a feature exactly when its
field count is 3, 4, 5, 6, 8, 9 or at least 12, every validated column
passes its per-column validator, and — when the count is exactly 12 — the
`blockCount` field equals the number of comma-separated entries in
`blockStart` and in `blockEnd`. -/
theorem validate_feature_iff (feature : List (List Char)) :
    validate_feature feature = .ok () ↔
      ((feature.length ∈ FEATURE_POSSIBLE_LENGTH ∨ 12 ≤ feature.length) ∧
       validateColumns bedNames bedValidators feature = .ok () ∧
       (feature.length = 12 → blockCountMatches feature = true)) := by
  by_cases hlen : ¬ feature.length ∈ FEATURE_POSSIBLE_LENGTH ∧
      feature.length < 12
  · have hval : validate_feature feature = .error msgWrongFields := by
      unfold validate_feature
      rw [if_pos hlen]
    rw [hval]
    constructor
    · intro h
      exact absurd h (by simp)
    · rintro ⟨h1, -, -⟩
      rcases h1 with h1 | h1
      · exact absurd h1 hlen.1
      · omega
  · have hval : validate_feature feature =
        match validateColumns bedNames bedValidators feature with
        | .error e => .error e
        | .ok _ =>
            if feature.length = 12 then
              if blockCountMatches feature then .ok () else .error msgBlocks
            else .ok () := by
      unfold validate_feature
      rw [if_neg hlen]
    rw [hval]
    have hcount : feature.length ∈ FEATURE_POSSIBLE_LENGTH ∨
        12 ≤ feature.length := by
      by_contra hc
      push_neg at hc
      exact hlen ⟨hc.1, by omega⟩
    cases hcol2 : validateColumns bedNames bedValidators feature with
    | error e =>
        constructor
        · intro h
          exact absurd h (by simp)
        · rintro ⟨-, h2, -⟩
          exact absurd h2 (by simp)
    | ok u =>
        cases u
        by_cases h12 : feature.length = 12
        · rw [if_pos h12]
          by_cases hb : blockCountMatches feature = true
          · rw [if_pos hb]
            simp [hcount, hcol2, hb]
          · rw [if_neg hb]
            constructor
            · intro h
              exact absurd h (by simp)
            · rintro ⟨-, -, h3⟩
              exact (hb (h3 h12)).elim
        · rw [if_neg h12]
          simp [hcount, hcol2, h12]

/-- C8 amended-claim witness: a minimal 3-field feature is accepted. -/
theorem validate_feature_iff_witness :
    validate_feature [['1'], ['1', '0'], ['2', '0']] = .ok () :=
  (validate_feature_iff _).mpr ⟨by decide, rfl, by decide⟩

/-! ## BED `create_index` parsing loop (`bed_indexer.py` lines 100-142) -/

def tokTrack : List Char := ['t', 'r', 'a', 'c', 'k']

def tokBrowser : List Char := ['b', 'r', 'o', 'w', 's', 'e', 'r']

/-- Python's `str.strip(chars)` for the `', '` set used on BED block
fields. -/
def pyStripSet (chars : List Char) (l : List Char) : List Char :=
  (l.dropWhile (fun c => c ∈ chars)).rdropWhile (fun c => c ∈ chars)

/-- Parsing state of the loop: collected track header lines, the expected
field count of the current track, and the per-track files of validated
features. -/
structure BedState : Type where
  tracks : List (List Char)
  track_feature_length : Option Nat
  track_files : List (List (List (List Char)))

def appendToLastFile (files : List (List (List (List Char))))
    (feature : List (List Char)) : List (List (List (List Char))) :=
  files.dropLast ++ [files.getLastD [] ++ [feature]]

def msgNotEnough : List Char :=
  ['n', 'o', 't', ' ', 'e', 'n', 'o', 'u', 'g', 'h']

def msgDifferent : List Char :=
  ['d', 'i', 'f', 'f', 'e', 'r', 'e', 'n', 't']

/-- The data-line tail (bed_indexer.py lines 132-142): normalize the
contig field, strip trailing commas/spaces off the block fields of wide
features, validate, and write the feature to the current track file. -/
def bedProcessFeature (tracks : List (List Char))
    (files : List (List (List (List Char)))) (tfl : Option Nat)
    (feature : List (List Char)) : Except (List Char) BedState :=
  let feature := feature.set 0 (normalize_contig_name (feature.getD 0 []))
  let feature :=
    if 12 ≤ feature.length then
      (feature.set 10 (pyStripSet [',', ' '] (feature.getD 10 []))).set 11
        (pyStripSet [',', ' '] (feature.getD 11 []))
    else feature
  match validate_feature feature with
  | .error e => .error e
  | .ok _ => .ok ⟨tracks, tfl, appendToLastFile files feature⟩

/-- One line of `BEDIndexer.create_index`'s reading loop: skip comments,
`browser` directives and blank lines; a `track` header opens a new track
(and resets the expected field count); a data line (synthesizing an
implicit track if none is open) must repeat the field count of the
track's first data line, which itself must have at least 3 fields. -/
def bedProcessLine (st : BedState) (rawLine : List Char) :
    Except (List Char) BedState :=
  let line := pyStrip rawLine
  if tokBrowser.isPrefixOf line || ['#'].isPrefixOf line || line.isEmpty then
    .ok st
  else if tokTrack.isPrefixOf line then
    .ok ⟨st.tracks ++ [line], none, st.track_files ++ [[]]⟩
  else
    let p :=
      if st.tracks.isEmpty then
        (st.tracks ++ [tokTrack], st.track_files ++ [[]])
      else (st.tracks, st.track_files)
    let feature := line.splitOn '\t'
    let feature_length := feature.length
    match st.track_feature_length with
    | none =>
        if feature_length < 3 then .error msgNotEnough
        else bedProcessFeature p.1 p.2 (some feature_length) feature
    | some tfl =>
        if feature_length ≠ tfl then .error msgDifferent
        else bedProcessFeature p.1 p.2 (some tfl) feature

def bedRun (st : BedState) : List (List Char) → Except (List Char) BedState
  | [] => .ok st
  | l :: ls =>
      match bedProcessLine st l with
      | .error e => .error e
      | .ok st2 => bedRun st2 ls

/-- The reading phase of `BEDIndexer.create_index` over the source lines. -/
def bedCreateIndexLines (lines : List (List Char)) :
    Except (List Char) BedState :=
  bedRun ⟨[], none, []⟩ lines

/-- Field count of a data line, as the loop computes it. -/
def nfields (l : List Char) : Nat :=
  ((pyStrip l).splitOn '\t').length

/-- A line the loop treats as a data line (not blank, comment, `browser`
or `track`). -/
def isBedDataLine (l : List Char) : Bool :=
  !(tokBrowser.isPrefixOf (pyStrip l)) && !(['#'].isPrefixOf (pyStrip l)) &&
    !(pyStrip l).isEmpty && !(tokTrack.isPrefixOf (pyStrip l))

theorem bedProcessFeature_cases (tracks : List (List Char))
    (files : List (List (List (List Char)))) (tfl : Option Nat)
    (f : List (List Char)) :
    (∃ e, bedProcessFeature tracks files tfl f = .error e) ∨
    (∃ files2, bedProcessFeature tracks files tfl f =
      .ok ⟨tracks, tfl, files2⟩) := by
  simp only [bedProcessFeature]
  split
  · rename_i e heq
    exact Or.inl ⟨e, rfl⟩
  · exact Or.inr ⟨_, rfl⟩

theorem bedProcessLine_data_first_short (st : BedState) (l : List Char)
    (htfl : st.track_feature_length = none)
    (hd : isBedDataLine l = true) (h3 : nfields l < 3) :
    bedProcessLine st l = .error msgNotEnough := by
  unfold bedProcessLine
  unfold isBedDataLine at hd
  simp only [Bool.and_eq_true, Bool.not_eq_true'] at hd
  rw [if_neg (by simp [hd.1.1.1, hd.1.1.2, hd.1.2])]
  rw [if_neg (by simp [hd.2])]
  rw [htfl]
  simp only []
  simp only [nfields] at h3
  rw [if_pos h3]

theorem bedProcessLine_data_later_mismatch (st : BedState) (l : List Char)
    (n : Nat) (htfl : st.track_feature_length = some n)
    (hd : isBedDataLine l = true) (hne : nfields l ≠ n) :
    bedProcessLine st l = .error msgDifferent := by
  unfold bedProcessLine
  unfold isBedDataLine at hd
  simp only [Bool.and_eq_true, Bool.not_eq_true'] at hd
  rw [if_neg (by simp [hd.1.1.1, hd.1.1.2, hd.1.2])]
  rw [if_neg (by simp [hd.2])]
  rw [htfl]
  simp only []
  simp only [nfields] at hne
  rw [if_pos hne]

theorem bedProcessLine_data_first_cases (st : BedState) (l : List Char)
    (htfl : st.track_feature_length = none)
    (hd : isBedDataLine l = true) (htr : st.tracks ≠ []) :
    (∃ e, bedProcessLine st l = .error e) ∨
    (∃ st2, bedProcessLine st l = .ok st2 ∧
      st2.track_feature_length = some (nfields l) ∧ st2.tracks ≠ []) := by
  unfold bedProcessLine
  unfold isBedDataLine at hd
  simp only [Bool.and_eq_true, Bool.not_eq_true'] at hd
  rw [if_neg (by simp [hd.1.1.1, hd.1.1.2, hd.1.2])]
  rw [if_neg (by simp [hd.2])]
  rw [htfl]
  simp only []
  by_cases h3 : nfields l < 3
  · rw [if_pos (by simpa [nfields] using h3)]
    exact Or.inl ⟨msgNotEnough, rfl⟩
  · rw [if_neg (by simpa [nfields] using h3)]
    rw [if_neg (by simpa [List.isEmpty_iff] using htr)]
    rcases bedProcessFeature_cases st.tracks st.track_files
        (some ((pyStrip l).splitOn '\t').length)
        ((pyStrip l).splitOn '\t') with ⟨e, he⟩ | ⟨files2, hok⟩
    · exact Or.inl ⟨e, he⟩
    · right
      exact ⟨_, hok, rfl, htr⟩

theorem bedProcessLine_preserves (st : BedState) (l : List Char) (n : Nat)
    (htfl : st.track_feature_length = some n)
    (hl : tokTrack.isPrefixOf (pyStrip l) = false) (htr : st.tracks ≠ []) :
    (∃ e, bedProcessLine st l = .error e) ∨
    (∃ st2, bedProcessLine st l = .ok st2 ∧
      st2.track_feature_length = some n ∧ st2.tracks ≠ []) := by
  unfold bedProcessLine
  by_cases hskip : (tokBrowser.isPrefixOf (pyStrip l) ||
      ['#'].isPrefixOf (pyStrip l) || (pyStrip l).isEmpty) = true
  · rw [if_pos hskip]
    exact Or.inr ⟨st, rfl, htfl, htr⟩
  · rw [if_neg hskip]
    rw [if_neg (by simp [hl])]
    rw [htfl]
    simp only []
    by_cases hne : ((pyStrip l).splitOn '\t').length ≠ n
    · rw [if_pos hne]
      exact Or.inl ⟨msgDifferent, rfl⟩
    · rw [if_neg hne]
      rw [if_neg (by simpa [List.isEmpty_iff] using htr)]
      rcases bedProcessFeature_cases st.tracks st.track_files (some n)
          ((pyStrip l).splitOn '\t') with ⟨e, he⟩ | ⟨files2, hok⟩
      · exact Or.inl ⟨e, he⟩
      · right
        exact ⟨_, hok, rfl, htr⟩

theorem bedRun_no_track (n : Nat) :
    ∀ (mid : List (List Char)) (st : BedState) (more : List (List Char)),
      st.track_feature_length = some n → st.tracks ≠ [] →
      (∀ l ∈ mid, tokTrack.isPrefixOf (pyStrip l) = false) →
      (∃ e, bedRun st mid = .error e ∧ bedRun st (mid ++ more) = .error e) ∨
      (∃ st3, bedRun st (mid ++ more) = bedRun st3 more ∧
        st3.track_feature_length = some n ∧ st3.tracks ≠ []) := by
  intro mid
  induction mid with
  | nil =>
      intro st more h1 h2 _
      exact Or.inr ⟨st, rfl, h1, h2⟩
  | cons l ls ih =>
      intro st more h1 h2 hmid
      rcases bedProcessLine_preserves st l n h1 (hmid l (by simp)) h2 with
        ⟨e, he⟩ | ⟨st2, hok, htfl2, htr2⟩
      · left
        refine ⟨e, ?_, ?_⟩
        · rw [bedRun, he]
        · rw [List.cons_append, bedRun, he]
      · rcases ih st2 more htfl2 htr2
            (fun x hx => hmid x (List.mem_cons_of_mem _ hx)) with
          ⟨e, he1, he2⟩ | ⟨st3, heq, h3, h4⟩
        · left
          refine ⟨e, ?_, ?_⟩
          · rw [bedRun, hok]
            exact he1
          · rw [List.cons_append, bedRun, hok]
            exact he2
        · right
          refine ⟨st3, ?_, h3, h4⟩
          rw [List.cons_append, bedRun, hok]
          exact heq

theorem bedProcessLine_track (st : BedState) (l : List Char)
    (h : tokTrack.isPrefixOf (pyStrip l) = true) :
    bedProcessLine st l =
      .ok ⟨st.tracks ++ [pyStrip l], none, st.track_files ++ [[]]⟩ := by
  obtain ⟨t, ht⟩ := List.isPrefixOf_iff_prefix.mp h
  unfold bedProcessLine
  rw [if_neg, if_pos h]
  rw [← ht]
  simp [tokTrack, tokBrowser, List.isPrefixOf]

/-- `bedRun` steps through a successfully processed line. -/
theorem bedRun_cons_ok (st st2 : BedState) (l : List Char)
    (ls : List (List Char)) (h : bedProcessLine st l = .ok st2) :
    bedRun st (l :: ls) = bedRun st2 ls := by
  rw [bedRun, h]

/-- `bedRun` aborts on a line that errors. -/
theorem bedRun_cons_err (st : BedState) (e l : List Char)
    (ls : List (List Char)) (h : bedProcessLine st l = .error e) :
    bedRun st (l :: ls) = .error e := by
  rw [bedRun, h]

/-- **C10**: within one track, the BED indexer fixes the expected field
count from the track's first data line (`track_feature_length`) and
raises an error on any later data line of that track whose field count
differs, even when both counts are individually accepted BED field
counts; unless some earlier line of the track already aborted the run,
the error is exactly the differing-field-count error. A first data line
with fewer than 3 fields always raises the not-enough-fields error. -/
theorem bed_track_count_checks :
    (∀ (header d1 d2 : List Char) (mid post : List (List Char)),
      tokTrack.isPrefixOf (pyStrip header) = true →
      isBedDataLine d1 = true → isBedDataLine d2 = true →
      (∀ l ∈ mid, tokTrack.isPrefixOf (pyStrip l) = false) →
      3 ≤ nfields d1 → nfields d2 ≠ nfields d1 →
      (∃ e, bedRun ⟨[], none, []⟩ (header :: d1 :: mid) = .error e) ∨
      bedCreateIndexLines (header :: d1 :: (mid ++ d2 :: post)) =
        .error msgDifferent) ∧
    (∀ (header d1 : List Char) (post : List (List Char)),
      tokTrack.isPrefixOf (pyStrip header) = true →
      isBedDataLine d1 = true → nfields d1 < 3 →
      bedCreateIndexLines (header :: d1 :: post) = .error msgNotEnough) := by
  constructor
  · intro header d1 d2 mid post hh hd1 hd2 hmid h3 hne
    have hh1 : bedProcessLine ⟨[], none, []⟩ header =
        .ok ⟨[] ++ [pyStrip header], none, [] ++ [[]]⟩ :=
      bedProcessLine_track ⟨[], none, []⟩ header hh
    have htr1 : (BedState.mk ([] ++ [pyStrip header]) none
        ([] ++ [[]])).tracks ≠ [] := by simp
    rcases bedProcessLine_data_first_cases _ d1 rfl hd1 htr1 with
      ⟨e, he⟩ | ⟨st2, hok2, htfl2, htr2⟩
    · left
      refine ⟨e, ?_⟩
      rw [bedRun_cons_ok _ _ _ _ hh1, bedRun_cons_err _ _ _ _ he]
    · rcases bedRun_no_track (nfields d1) mid st2 (d2 :: post) htfl2 htr2
          hmid with ⟨e, he1, he2⟩ | ⟨st3, heq, h3', h4'⟩
      · left
        refine ⟨e, ?_⟩
        rw [bedRun_cons_ok _ _ _ _ hh1, bedRun_cons_ok _ _ _ _ hok2]
        exact he1
      · right
        unfold bedCreateIndexLines
        rw [bedRun_cons_ok _ _ _ _ hh1, bedRun_cons_ok _ _ _ _ hok2]
        rw [heq]
        exact bedRun_cons_err _ _ _ _
          (bedProcessLine_data_later_mismatch st3 d2 (nfields d1) h3' hd2 hne)
  · intro header d1 post hh hd1 h3
    unfold bedCreateIndexLines
    rw [bedRun_cons_ok _ _ _ _ (bedProcessLine_track ⟨[], none, []⟩ header hh)]
    exact bedRun_cons_err _ _ _ _
      (bedProcessLine_data_first_short _ d1 rfl hd1 h3)

theorem bed_track_count_checks_witness :
    ((∃ e, bedRun ⟨[], none, []⟩
        [['t', 'r', 'a', 'c', 'k'], ['1', '\t', '0', '\t', '5', '\t', 'x']] =
        .error e) ∨
      bedCreateIndexLines
        [['t', 'r', 'a', 'c', 'k'], ['1', '\t', '0', '\t', '5', '\t', 'x'],
          ['1', '\t', '0', '\t', '5', '\t', 'x', '\t', '0']] =
        .error msgDifferent) ∧
    bedCreateIndexLines [['t', 'r', 'a', 'c', 'k'], ['1', '\t', '2']] =
      .error msgNotEnough :=
  ⟨bed_track_count_checks.1 ['t', 'r', 'a', 'c', 'k']
      ['1', '\t', '0', '\t', '5', '\t', 'x']
      ['1', '\t', '0', '\t', '5', '\t', 'x', '\t', '0'] [] [] (by decide)
      (by decide) (by decide) (by simp) (by decide) (by decide),
    bed_track_count_checks.2 ['t', 'r', 'a', 'c', 'k'] ['1', '\t', '2'] []
      (by decide) (by decide) (by decide)⟩

-- ## Variation indexer range aggregation (`variation_indexer.py` 74-93, 184-194)

/-- Value of a decimal-digit string. -/
def natOfDigits (l : List Char) : Nat :=
  l.foldl (fun n c => 10 * n + (c.toNat - 48)) 0

/-- The maximal run matched by the group `[0-9]*\.?[0-9]*` of the
`(Range:a-b)` pattern, together with the rest of the input.  For this
pattern greedy matching is exact: a shorter run always ends right before
a digit or the dot, never before the `-` or `)` the pattern requires
next, so backtracking can never pick a shorter run. -/
def rangeGroup (l : List Char) : List Char × List Char :=
  let a := l.takeWhile Char.isDigit
  let r := l.dropWhile Char.isDigit
  match r with
  | '.' :: r2 =>
      (a ++ '.' :: r2.takeWhile Char.isDigit, r2.dropWhile Char.isDigit)
  | _ => (a, r)

/-- Match `\(Range:([0-9]*\.?[0-9]*)-([0-9]*\.?[0-9]*)\)` at the head of
the input, returning the two groups. -/
def matchRangeAt : List Char → Option (List Char × List Char)
  | '(' :: 'R' :: 'a' :: 'n' :: 'g' :: 'e' :: ':' :: rest =>
      match (rangeGroup rest).2 with
      | '-' :: r2 =>
          match (rangeGroup r2).2 with
          | ')' :: _ => some ((rangeGroup rest).1, (rangeGroup r2).1)
          | _ => none
      | _ => none
  | _ => none

/-- `re.search`: try the pattern at every start position, leftmost match
wins. -/
def searchRange : List Char → Option (List Char × List Char)
  | [] => none
  | c :: rest =>
      match matchRangeAt (c :: rest) with
      | some g => some g
      | none => searchRange rest

/-- `float(x)` on a group `digits [. digits]` (as exact rationals, since
every such decimal literal is exactly representable here). -/
def ratOfDigits (g : List Char) : ℚ :=
  let a := g.takeWhile Char.isDigit
  let r := g.dropWhile Char.isDigit
  let b := match r with | '.' :: r2 => r2 | _ => []
  mkRat (natOfDigits a * 10 ^ b.length + natOfDigits b) (10 ^ b.length)

/-- `float(x) if x else None` on a group: an empty group means no limit;
the group `"."` alone makes `float` raise `ValueError`. -/
def rangeGroupValue (g : List Char) : Except (List Char) (Option ℚ) :=
  if g.isEmpty then .ok none
  else if g = ['.'] then
    .error ['V', 'a', 'l', 'u', 'e', 'E', 'r', 'r', 'o', 'r']
  else .ok (some (ratOfDigits g))

/-- `RecordConverter.__get_range_limit` restricted to one schema
description: `none` when the pattern does not occur in the description
(the key is then absent from `range_limit`), otherwise the parsed
`(low, high)` pair of optional bounds. -/
def get_range_limit_desc (desc : List Char) :
    Except (List Char) (Option (Option ℚ × Option ℚ)) :=
  match searchRange desc with
  | none => .ok none
  | some (g1, g2) =>
      match rangeGroupValue g1 with
      | .error e => .error e
      | .ok low =>
          match rangeGroupValue g2 with
          | .error e => .error e
          | .ok high => .ok (some (low, high))

/-- Python truthiness of `low_limit` / `high_limit`: `None` and `0.0`
are falsy. -/
def pyTruthyFloat : Option ℚ → Bool
  | none => false
  | some q => decide (q ≠ 0)

/-- The `sorting_max_` / `sorting_min_` computation of
`convert_record_to_feature` (lines 186-194) on a numeric list value:
filter by the low bound only `if low_limit:`, then by the high bound
only `if high_limit:`, then `max`/`min` of the remaining values `if
value:`. -/
def sortingMinMax (range_limit : Option (Option ℚ × Option ℚ))
    (value : List ℚ) : Option (ℚ × ℚ) :=
  let lims := range_limit.getD (none, none)
  let v1 := if pyTruthyFloat lims.1 then
      value.filter (fun x => decide (lims.1.getD 0 ≤ x))
    else value
  let v2 := if pyTruthyFloat lims.2 then
      v1.filter (fun x => decide (x ≤ lims.2.getD 0))
    else v1
  match v2 with
  | [] => none
  | x :: xs => some (xs.foldl max x, xs.foldl min x)

/-- The multi-valued numeric branch of `convert_record_to_feature`:
`data[typed_key] = value` stores the raw list (before the local name
`value` is rebound to the filtered comprehensions), and the synthetic
sorting pair is computed afterwards. -/
def infoListField (range_limit : Option (Option ℚ × Option ℚ))
    (value : List ℚ) : List ℚ × Option (ℚ × ℚ) :=
  (value, sortingMinMax range_limit value)

/-- The description `"(Range:0-1)"` of the counterexample and scenario. -/
def rangeDesc01 : List Char :=
  ['(', 'R', 'a', 'n', 'g', 'e', ':', '0', '-', '1', ')']

theorem foldl_max_mem (x : ℚ) (t : List ℚ) : t.foldl max x ∈ x :: t := by
  induction t generalizing x with
  | nil => simp
  | cons y ys ih =>
      rw [List.foldl_cons]
      rcases List.mem_cons.mp (ih (max x y)) with h | h
      · rw [h]
        rcases max_choice x y with hm | hm <;> rw [hm] <;> simp
      · exact List.mem_cons_of_mem _ (List.mem_cons_of_mem _ h)

theorem foldl_min_mem (x : ℚ) (t : List ℚ) : t.foldl min x ∈ x :: t := by
  induction t generalizing x with
  | nil => simp
  | cons y ys ih =>
      rw [List.foldl_cons]
      rcases List.mem_cons.mp (ih (min x y)) with h | h
      · rw [h]
        rcases min_choice x y with hm | hm <;> rw [hm] <;> simp
      · exact List.mem_cons_of_mem _ (List.mem_cons_of_mem _ h)

theorem le_foldl_max (x : ℚ) (t : List ℚ) :
    ∀ y ∈ x :: t, y ≤ t.foldl max x := by
  induction t generalizing x with
  | nil =>
      intro y hy
      rw [List.mem_singleton] at hy
      rw [hy, List.foldl_nil]
  | cons z zs ih =>
      intro y hy
      rw [List.foldl_cons]
      rcases List.mem_cons.mp hy with h | h
      · rw [h]
        exact le_trans (le_max_left x z)
          (ih (max x z) _ (List.mem_cons_self _ _))
      · rcases List.mem_cons.mp h with h2 | h2
        · rw [h2]
          exact le_trans (le_max_right x z)
            (ih (max x z) _ (List.mem_cons_self _ _))
        · exact ih (max x z) y (List.mem_cons_of_mem _ h2)

theorem foldl_min_le (x : ℚ) (t : List ℚ) :
    ∀ y ∈ x :: t, t.foldl min x ≤ y := by
  induction t generalizing x with
  | nil =>
      intro y hy
      rw [List.mem_singleton] at hy
      rw [hy, List.foldl_nil]
  | cons z zs ih =>
      intro y hy
      rw [List.foldl_cons]
      rcases List.mem_cons.mp hy with h | h
      · rw [h]
        exact le_trans (ih (min x z) _ (List.mem_cons_self _ _))
          (min_le_left x z)
      · rcases List.mem_cons.mp h with h2 | h2
        · rw [h2]
          exact le_trans (ih (min x z) _ (List.mem_cons_self _ _))
            (min_le_right x z)
        · exact ih (min x z) y (List.mem_cons_of_mem _ h2)

theorem sortingMinMax_truthy (lo hi : ℚ) (value : List ℚ)
    (hlo : lo ≠ 0) (hhi : hi ≠ 0) :
    sortingMinMax (some (some lo, some hi)) value =
      match (value.filter (fun x => decide (lo ≤ x))).filter
          (fun x => decide (x ≤ hi)) with
      | [] => none
      | x :: xs => some (xs.foldl max x, xs.foldl min x) := by
  have t1 : pyTruthyFloat (some lo) = true := by simp [pyTruthyFloat, hlo]
  have t2 : pyTruthyFloat (some hi) = true := by simp [pyTruthyFloat, hhi]
  unfold sortingMinMax
  simp only [Option.getD_some, t1, t2, if_true]

/-- Counterexample to C3's "only the values inside the declared range":
the description declares the range [0,1], yet with values -1/2 and 1/5
the computed sorting pair keeps -1/2 as the minimum, because the parsed
low limit 0.0 is falsy in Python (`if low_limit:`) and the low-bound
filter is silently skipped; the in-range minimum would be 1/5. -/
theorem convert_record_zero_low_bound_counterexample :
    get_range_limit_desc rangeDesc01 = .ok (some (some 0, some 1)) ∧
    infoListField (some (some 0, some 1)) [-(mkRat 1 2), mkRat 1 5] =
      ([-(mkRat 1 2), mkRat 1 5], some (mkRat 1 5, -(mkRat 1 2))) ∧
    ¬((0 : ℚ) ≤ -(mkRat 1 2)) ∧ (mkRat 1 5 ≠ -(mkRat 1 2)) := by
  refine ⟨rfl, by decide, by decide, by decide⟩

/-- **C3** (amended): for a multi-valued numeric INFO field with a
declared range, the raw value list is always stored unmodified and in
full; when both parsed bounds are truthy in Python (present and
nonzero), the synthetic sorting fields are the maximum and minimum over
exactly the values inside the declared range (absent when no value is in
range), but a bound equal to 0 is silently skipped by the `if
low_limit:` / `if high_limit:` truthiness tests.  The spec's scenario —
declared range [0,1], values [0.2, 1.5, 0.9] — does hold: min 1/5, max
9/10 with 3/2 excluded, the raw list keeping all three values. -/
theorem convert_record_range_aggregation :
    (∀ (lo hi : ℚ) (value : List ℚ), lo ≠ 0 → hi ≠ 0 →
      (infoListField (some (some lo, some hi)) value).1 = value ∧
      ((∀ y ∈ value, ¬(lo ≤ y ∧ y ≤ hi)) →
        (infoListField (some (some lo, some hi)) value).2 = none) ∧
      (∀ M m,
        (infoListField (some (some lo, some hi)) value).2 = some (M, m) →
        (M ∈ value ∧ lo ≤ M ∧ M ≤ hi) ∧ (m ∈ value ∧ lo ≤ m ∧ m ≤ hi) ∧
        ∀ y ∈ value, lo ≤ y → y ≤ hi → m ≤ y ∧ y ≤ M) ∧
      (∀ y ∈ value, lo ≤ y → y ≤ hi →
        ∃ M m,
          (infoListField (some (some lo, some hi)) value).2 = some (M, m))) ∧
    (get_range_limit_desc rangeDesc01 = .ok (some (some 0, some 1)) ∧
      infoListField (some (some 0, some 1)) [mkRat 1 5, mkRat 3 2, mkRat 9 10]
        = ([mkRat 1 5, mkRat 3 2, mkRat 9 10],
            some (mkRat 9 10, mkRat 1 5))) := by
  constructor
  · intro lo hi value hlo hhi
    have hs := sortingMinMax_truthy lo hi value hlo hhi
    have h2 : (infoListField (some (some lo, some hi)) value).2 =
        sortingMinMax (some (some lo, some hi)) value := rfl
    refine ⟨rfl, ?_, ?_, ?_⟩
    · intro hnone
      rw [h2, hs]
      have hnil : (value.filter (fun x => decide (lo ≤ x))).filter
          (fun x => decide (x ≤ hi)) = [] := by
        rw [List.filter_eq_nil_iff]
        intro a ha
        obtain ⟨hav, hpa⟩ := List.mem_filter.mp ha
        have hla : lo ≤ a := of_decide_eq_true hpa
        simp only [decide_eq_true_eq]
        intro hah
        exact hnone a hav ⟨hla, hah⟩
      rw [hnil]
    · intro M m hMm
      rw [h2, hs] at hMm
      cases hv : (value.filter (fun x => decide (lo ≤ x))).filter
          (fun x => decide (x ≤ hi)) with
      | nil => rw [hv] at hMm; exact absurd hMm (by simp)
      | cons x xs =>
          rw [hv] at hMm
          simp only [Option.some.injEq, Prod.mk.injEq] at hMm
          obtain ⟨hM, hm⟩ := hMm
          have hmemv : ∀ z ∈ x :: xs, z ∈ value ∧ lo ≤ z ∧ z ≤ hi := by
            intro z hz
            rw [← hv] at hz
            obtain ⟨hz1, hz2⟩ := List.mem_filter.mp hz
            obtain ⟨hz3, hz4⟩ := List.mem_filter.mp hz1
            exact ⟨hz3, of_decide_eq_true hz4, of_decide_eq_true hz2⟩
          have hinv : ∀ y ∈ value, lo ≤ y → y ≤ hi → y ∈ x :: xs := by
            intro y hy hylo hyhi
            rw [← hv]
            exact List.mem_filter.mpr
              ⟨List.mem_filter.mpr ⟨hy, decide_eq_true hylo⟩,
                decide_eq_true hyhi⟩
          refine ⟨?_, ?_, ?_⟩
          · exact hM ▸ hmemv _ (foldl_max_mem x xs)
          · exact hm ▸ hmemv _ (foldl_min_mem x xs)
          · intro y hy hylo hyhi
            exact ⟨hm ▸ foldl_min_le x xs y (hinv y hy hylo hyhi),
              hM ▸ le_foldl_max x xs y (hinv y hy hylo hyhi)⟩
    · intro y hy hylo hyhi
      rw [h2, hs]
      cases hv : (value.filter (fun x => decide (lo ≤ x))).filter
          (fun x => decide (x ≤ hi)) with
      | nil =>
          exfalso
          have : y ∈ (value.filter (fun x => decide (lo ≤ x))).filter
              (fun x => decide (x ≤ hi)) :=
            List.mem_filter.mpr
              ⟨List.mem_filter.mpr ⟨hy, decide_eq_true hylo⟩,
                decide_eq_true hyhi⟩
          rw [hv] at this
          exact absurd this (List.not_mem_nil y)
      | cons x xs => exact ⟨_, _, rfl⟩
  · exact ⟨rfl, by decide⟩

theorem convert_record_range_aggregation_witness :
    ((mkRat 1 10 : ℚ) ≠ 0) ∧ ((1 : ℚ) ≠ 0) ∧
    (infoListField (some (some (mkRat 1 10), some 1))
        [mkRat 1 5, mkRat 3 2, mkRat 9 10]).1 =
      [mkRat 1 5, mkRat 3 2, mkRat 9 10] ∧
    (infoListField (some (some (mkRat 1 10), some 1))
        [mkRat 1 5, mkRat 3 2, mkRat 9 10]).2 =
      some (mkRat 9 10, mkRat 1 5) ∧
    ((mkRat 9 10 ∈ [mkRat 1 5, mkRat 3 2, mkRat 9 10] ∧
        mkRat 1 10 ≤ mkRat 9 10 ∧ mkRat 9 10 ≤ 1) ∧
      (mkRat 1 5 ∈ [mkRat 1 5, mkRat 3 2, mkRat 9 10] ∧
        mkRat 1 10 ≤ mkRat 1 5 ∧ mkRat 1 5 ≤ 1) ∧
      ∀ y ∈ [mkRat 1 5, mkRat 3 2, mkRat 9 10],
        mkRat 1 10 ≤ y → y ≤ 1 → mkRat 1 5 ≤ y ∧ y ≤ mkRat 9 10) ∧
    (infoListField (some (some (mkRat 1 10), some 1)) [mkRat 3 2]).2 =
      none := by
  have h := convert_record_range_aggregation.1 (mkRat 1 10) 1
    [mkRat 1 5, mkRat 3 2, mkRat 9 10] (by decide) (by decide)
  have h2 := convert_record_range_aggregation.1 (mkRat 1 10) 1 [mkRat 3 2]
    (by decide) (by decide)
  exact ⟨by decide, by decide, h.1, by decide,
    h.2.2.1 (mkRat 9 10) (mkRat 1 5) (by decide), h2.2.1 (by decide)⟩
